/-
  Verification of core invariants of the Deesta infinite-canvas whiteboard.

  The definitions below are a shallow embedding of the repository's core
  modules:
    - `src/utils/quadtree.ts`        (class Quadtree, Rect)
    - `src/core/canvas_engine.ts`    (class CanvasEngine, PHYSICS_CONFIG)
    - `src/core/document_store.ts`   (class DocumentStore)
    - `src/core/interaction_manager.ts` (class InteractionManager)
  Coordinates (JS `number`) are modelled as exact rationals; JS `Map`s are
  modelled as association lists with unique keys; callback invocations are
  modelled as returned event lists.
-/
import Mathlib

namespace Deesta

/- The Batteries rational-arithmetic primitives are `@[irreducible]`, which
blocks `decide` from evaluating concrete scenarios; re-allow unfolding them
inside this development. -/
attribute [local semireducible] Rat.add Rat.mul Rat.inv Rat.sub

/-! ## Geometry: `Rect` (src/utils/quadtree.ts) -/

/-- An axis-aligned rectangle `{x, y, width, height}`. -/
structure Rect where
  x : ℚ
  y : ℚ
  width : ℚ
  height : ℚ
deriving DecidableEq, Repr

/-- `Quadtree.intersects(a, b)`: strict axis overlap, exactly as in the source. -/
def Rect.intersects (a b : Rect) : Prop :=
  a.x < b.x + b.width ∧ a.x + a.width > b.x ∧
  a.y < b.y + b.height ∧ a.y + a.height > b.y

instance (a b : Rect) : Decidable (a.intersects b) := by
  unfold Rect.intersects; infer_instance

/-- Specification-level containment: `inner` lies (weakly) inside `outer`. -/
def Rect.containedIn (inner outer : Rect) : Prop :=
  outer.x ≤ inner.x ∧ inner.x + inner.width ≤ outer.x + outer.width ∧
  outer.y ≤ inner.y ∧ inner.y + inner.height ≤ outer.y + outer.height

instance (a b : Rect) : Decidable (a.containedIn b) := by
  unfold Rect.containedIn; infer_instance

/-! ## Quadtree (src/utils/quadtree.ts)

The source stores items of type `T extends { id: string }` together with their
bounds; children are `nodes[0..3] = NE, NW, SW, SE`.  We model the node array
as either absent (`leaf`) or all four present (`branch`), which is exactly the
two states the source code produces (`split()` always creates all four). -/

/-- The four quadrants, in the index order `0 = NE, 1 = NW, 2 = SW, 3 = SE`
used by the source. -/
inductive Quad
  | ne | nw | sw | se
deriving DecidableEq, Repr

/-- The child bounds computed by `Quadtree.split()`. -/
def quadOf (q : Quad) (bd : Rect) : Rect :=
  let subWidth := bd.width / 2
  let subHeight := bd.height / 2
  match q with
  | .ne => ⟨bd.x + subWidth, bd.y, subWidth, subHeight⟩
  | .nw => ⟨bd.x, bd.y, subWidth, subHeight⟩
  | .sw => ⟨bd.x, bd.y + subHeight, subWidth, subHeight⟩
  | .se => ⟨bd.x + subWidth, bd.y + subHeight, subWidth, subHeight⟩

/-- `Quadtree.getIndex(rect)`: strict-fit quadrant classification.
`none` models the source's `-1` (the rect straddles a midline and belongs to
the current node). -/
def getIndex (bd r : Rect) : Option Quad :=
  let verticalMidpoint := bd.x + bd.width / 2
  let horizontalMidpoint := bd.y + bd.height / 2
  if r.x < verticalMidpoint ∧ r.x + r.width < verticalMidpoint then
    if r.y < horizontalMidpoint ∧ r.y + r.height < horizontalMidpoint then some .nw
    else if r.y > horizontalMidpoint then some .sw
    else none
  else if r.x > verticalMidpoint then
    if r.y < horizontalMidpoint ∧ r.y + r.height < horizontalMidpoint then some .ne
    else if r.y > horizontalMidpoint then some .se
    else none
  else none

/-- The quadtree.  `objects` is this node's bucket (`{item, bounds}` pairs);
`level` is the node's subdivision depth. -/
inductive Quadtree (α : Type)
  | leaf (bounds : Rect) (level : ℕ) (objects : List (α × Rect))
  | branch (bounds : Rect) (level : ℕ) (objects : List (α × Rect))
      (ne nw sw se : Quadtree α)
deriving DecidableEq

namespace Quadtree

variable {α : Type}

def bounds : Quadtree α → Rect
  | .leaf bd _ _ => bd
  | .branch bd _ _ _ _ _ _ => bd

def level : Quadtree α → ℕ
  | .leaf _ lvl _ => lvl
  | .branch _ lvl _ _ _ _ _ => lvl

/-- All `{item, bounds}` pairs stored anywhere in the tree (the source's
`getAll()`, but keeping the stored bounds). -/
def allObjects : Quadtree α → List (α × Rect)
  | .leaf _ _ objs => objs
  | .branch _ _ objs ne nw sw se =>
      objs ++ (ne.allObjects ++ (nw.allObjects ++ (sw.allObjects ++ se.allObjects)))

/-- `this.objects.push({item, bounds})` at the root node (used when insertion
fuel is exhausted; see `insert`). -/
def pushObj : Quadtree α → α → Rect → Quadtree α
  | .leaf bd lvl objs, it, b => .leaf bd lvl (objs ++ [(it, b)])
  | .branch bd lvl objs ne nw sw se, it, b => .branch bd lvl (objs ++ [(it, b)]) ne nw sw se

/-- The redistribution loop inside `insert`: walk the bucket, pushing each
object that strictly fits a quadrant into that child (via the supplied
one-level-deeper insertion function `ins`) and keeping the rest, in order. -/
def redistribute (ins : Quadtree α → α → Rect → Quadtree α) (bd : Rect) (lvl : ℕ) :
    List (α × Rect) → List (α × Rect) →
    Quadtree α → Quadtree α → Quadtree α → Quadtree α → Quadtree α
  | [], stay, ne, nw, sw, se => .branch bd lvl stay ne nw sw se
  | o :: rest, stay, ne, nw, sw, se =>
    match getIndex bd o.2 with
    | some .ne => redistribute ins bd lvl rest stay (ins ne o.1 o.2) nw sw se
    | some .nw => redistribute ins bd lvl rest stay ne (ins nw o.1 o.2) sw se
    | some .sw => redistribute ins bd lvl rest stay ne nw (ins sw o.1 o.2) se
    | some .se => redistribute ins bd lvl rest stay ne nw sw (ins se o.1 o.2)
    | none => redistribute ins bd lvl rest (stay ++ [o]) ne nw sw se

/-- `Quadtree.insert(item, itemBounds)`.  The JS recursion is bounded by the
tree depth; we make that bound explicit as a `fuel` argument (when fuel runs
out the item is kept in the current bucket, which the callers below never
trigger: every use instantiates `fuel` far above `maxLevel`).  Splitting
pushes the freshly created four children of `split()` through the
redistribution loop, exactly as the source does. -/
def insert (cap maxLvl : ℕ) : ℕ → Quadtree α → α → Rect → Quadtree α
  | 0, t, it, b => t.pushObj it b
  | fuel + 1, .branch bd lvl objs ne nw sw se, it, b =>
    (match getIndex bd b with
     | some .ne => .branch bd lvl objs (insert cap maxLvl fuel ne it b) nw sw se
     | some .nw => .branch bd lvl objs ne (insert cap maxLvl fuel nw it b) sw se
     | some .sw => .branch bd lvl objs ne nw (insert cap maxLvl fuel sw it b) se
     | some .se => .branch bd lvl objs ne nw sw (insert cap maxLvl fuel se it b)
     | none =>
       let objs1 := objs ++ [(it, b)]
       if objs1.length > cap ∧ lvl < maxLvl then
         redistribute (insert cap maxLvl fuel) bd lvl objs1 [] ne nw sw se
       else .branch bd lvl objs1 ne nw sw se)
  | fuel + 1, .leaf bd lvl objs, it, b =>
    let objs1 := objs ++ [(it, b)]
    if objs1.length > cap ∧ lvl < maxLvl then
      redistribute (insert cap maxLvl fuel) bd lvl objs1 []
        (.leaf (quadOf .ne bd) (lvl + 1) []) (.leaf (quadOf .nw bd) (lvl + 1) [])
        (.leaf (quadOf .sw bd) (lvl + 1) []) (.leaf (quadOf .se bd) (lvl + 1) [])
    else .leaf bd lvl objs1

/-- `Quadtree.retrieve(returnObjects, requestBounds)`: recurse into the single
strictly-fitting child when there is one, otherwise into every child whose
bounds intersect the request; then add this node's whole bucket. -/
def retrieve : Quadtree α → Rect → List α
  | .leaf _ _ objs, _ => objs.map Prod.fst
  | .branch bd _ objs ne nw sw se, q =>
    (match getIndex bd q with
     | some .ne => ne.retrieve q
     | some .nw => nw.retrieve q
     | some .sw => sw.retrieve q
     | some .se => se.retrieve q
     | none =>
       (if ne.bounds.intersects q then ne.retrieve q else []) ++
       ((if nw.bounds.intersects q then nw.retrieve q else []) ++
        ((if sw.bounds.intersects q then sw.retrieve q else []) ++
         (if se.bounds.intersects q then se.retrieve q else [])))) ++ objs.map Prod.fst

/-- `Quadtree.removeById(id)`: remove the first object whose item has the
given id, searching this bucket first, then the children in index order;
returns the updated tree and whether a removal happened. -/
def removeById (key : α → String) : Quadtree α → String → Quadtree α × Bool
  | .leaf bd lvl objs, i =>
    if objs.any (fun o => key o.1 = i) then
      (.leaf bd lvl (objs.eraseP (fun o => decide (key o.1 = i))), true)
    else (.leaf bd lvl objs, false)
  | .branch bd lvl objs ne nw sw se, i =>
    if objs.any (fun o => key o.1 = i) then
      (.branch bd lvl (objs.eraseP (fun o => decide (key o.1 = i))) ne nw sw se, true)
    else
      let r1 := ne.removeById key i
      if r1.2 then (.branch bd lvl objs r1.1 nw sw se, true) else
      let r2 := nw.removeById key i
      if r2.2 then (.branch bd lvl objs r1.1 r2.1 sw se, true) else
      let r3 := sw.removeById key i
      if r3.2 then (.branch bd lvl objs r1.1 r2.1 r3.1 se, true) else
      let r4 := se.removeById key i
      (.branch bd lvl objs r1.1 r2.1 r3.1 r4.1, r4.2)

/-- Number of stored objects whose item has the given id. -/
def countKey (key : α → String) (t : Quadtree α) (i : String) : ℕ :=
  (t.allObjects.filter (fun o => key o.1 = i)).length

/-- Structural well-formedness of a quadtree: node dimensions are nonnegative,
every stored object's bounds lie inside the node's bounds, and each child of a
branch carries exactly the quadrant bounds computed by `split()`.  This is the
invariant `insert` maintains for in-world items. -/
def WF : Quadtree α → Prop
  | .leaf bd _ objs =>
      0 ≤ bd.width ∧ 0 ≤ bd.height ∧ ∀ p ∈ objs, p.2.containedIn bd
  | .branch bd _ objs ne nw sw se =>
      0 ≤ bd.width ∧ 0 ≤ bd.height ∧ (∀ p ∈ objs, p.2.containedIn bd) ∧
      ne.bounds = quadOf .ne bd ∧ nw.bounds = quadOf .nw bd ∧
      sw.bounds = quadOf .sw bd ∧ se.bounds = quadOf .se bd ∧
      WF ne ∧ WF nw ∧ WF sw ∧ WF se

instance decWF : (t : Quadtree α) → Decidable (WF t)
  | .leaf bd lvl objs => by unfold WF; infer_instance
  | .branch bd lvl objs ne nw sw se => by
      unfold WF
      have d1 := decWF ne
      have d2 := decWF nw
      have d3 := decWF sw
      have d4 := decWF se
      infer_instance

end Quadtree

/-! ## Association-list maps (JS `Map` semantics: unique keys, `set` replaces
in place, new keys append) -/

/-- `Map.get(id)`. -/
def lookupKey {β : Type} (i : String) : List (String × β) → Option β
  | [] => none
  | (k, v) :: rest => if k = i then some v else lookupKey i rest

/-- `Map.set(id, v)`: replace the entry in place, or append a new one. -/
def setKey {β : Type} (i : String) (v : β) : List (String × β) → List (String × β)
  | [] => [(i, v)]
  | (k, w) :: rest => if k = i then (i, v) :: rest else (k, w) :: setKey i v rest

/-- `Map.delete(id)`. -/
def delKey {β : Type} (i : String) : List (String × β) → List (String × β)
  | [] => []
  | (k, w) :: rest => if k = i then rest else (k, w) :: delKey i rest

/-- Number of entries under a key (1 or 0 for a well-formed map). -/
def countKeyL {β : Type} (i : String) (l : List (String × β)) : ℕ :=
  (l.filter (fun p => p.1 = i)).length

/-! ## Canvas engine (src/core/canvas_engine.ts) -/

/-- A stroke sample `[x, y, pressure]`. -/
abbrev P3 : Type := ℚ × ℚ × ℚ

/-- What the stroke quadtree stores: `{ id, stroke }` (the stroke's points). -/
abbrev StrokeItem : Type := String × List P3

/-- `PHYSICS_CONFIG` (canvas_engine.ts). -/
structure PhysicsConfig where
  mass : ℚ
  friction : ℚ
  spring : ℚ
  staticFrictionThreshold : ℚ
  minVelocity : ℚ
deriving DecidableEq

def PHYSICS_CONFIG : PhysicsConfig :=
  { mass := 3/2, friction := 23/25, spring := 1/10,
    staticFrictionThreshold := 1/20, minVelocity := 1/100 }

/-- Per-card runtime physics state (interface `PhysicsState`). -/
structure PhysicsState where
  x : ℚ
  y : ℚ
  vx : ℚ
  vy : ℚ
  targetX : ℚ
  targetY : ℚ
  isDragging : Bool
  dragOffsetX : ℚ
  dragOffsetY : ℚ
  cardId : String
deriving DecidableEq

/-- Viewport state (interface `ViewportState`). -/
structure ViewportState where
  x : ℚ
  y : ℚ
  scale : ℚ
  vx : ℚ
  vy : ℚ
  isDragging : Bool
  lastPointerX : ℚ
  lastPointerY : ℚ
deriving DecidableEq

/-- A connection record (interface `Connection`). -/
structure ConnectionR where
  id : String
  fromId : String
  toId : String
deriving DecidableEq

/-- The world extent used by the engine constructor. -/
def engineWorldBounds : Rect := ⟨-50000, -50000, 100000, 100000⟩

/-- Quadtree constructor defaults used by the engine (`capacity = 10`,
`maxLevel = 5`). -/
def qtCapacity : ℕ := 10

def qtMaxLevel : ℕ := 5

/-- Recursion bound handed to the embedded `insert`; any value above the
maximal node level (5) plus one is never reached, see `Quadtree.insert`. -/
def qtFuel : ℕ := 16

/-- The state of `CanvasEngine` that the core operations read and write.
Rendering resources (Pixi `Graphics` nodes, text nodes, cursors) are not
modelled. -/
structure CanvasState where
  cards : List (String × PhysicsState)
  connections : List (String × ConnectionR)
  strokes : List (String × List P3)
  currentStroke : Option (String × List P3)
  cardQuadtree : Quadtree String
  strokeQuadtree : Quadtree StrokeItem
  viewport : ViewportState
deriving DecidableEq

/-- `worldContainer.toGlobal`: world coordinates to screen coordinates
(the world container sits at `(viewport.x, viewport.y)` with uniform scale
`viewport.scale`, see `physicsTick`). -/
def worldToScreen (vp : ViewportState) (p : ℚ × ℚ) : ℚ × ℚ :=
  (p.1 * vp.scale + vp.x, p.2 * vp.scale + vp.y)

/-- `worldContainer.toLocal`: screen coordinates to world coordinates. -/
def screenToWorld (vp : ViewportState) (p : ℚ × ℚ) : ℚ × ℚ :=
  ((p.1 - vp.x) / vp.scale, (p.2 - vp.y) / vp.scale)

/-- The wheel handler registered in `setupInteraction`. -/
def ViewportState.wheelZoom (vp : ViewportState) (deltaY mouseX mouseY : ℚ) : ViewportState :=
  let zoomFactor : ℚ := if deltaY > 0 then 9/10 else 11/10
  let oldScale := vp.scale
  let newScale := max (1/10) (min 5 (oldScale * zoomFactor))
  { vp with
    x := mouseX - (mouseX - vp.x) * (newScale / oldScale),
    y := mouseY - (mouseY - vp.y) * (newScale / oldScale),
    scale := newScale }

/-- The card branch of `physicsTick` (spring-damper integration, applied to
every non-dragged card each tick). -/
def physicsTickCard (cfg : PhysicsConfig) (st : PhysicsState) : PhysicsState :=
  if st.isDragging then st
  else
    let dx := st.targetX - st.x
    let dy := st.targetY - st.y
    let ax := dx * cfg.spring / cfg.mass
    let ay := dy * cfg.spring / cfg.mass
    let vx1 := (st.vx + ax) * cfg.friction
    let vy1 := (st.vy + ay) * cfg.friction
    { st with vx := vx1, vy := vy1, x := st.x + vx1, y := st.y + vy1 }

/-- `CanvasEngine.createCard` (colour, text and image only affect rendering). -/
def CanvasState.createCard (s : CanvasState) (cardId : String) (x y : ℚ) : CanvasState :=
  if (lookupKey cardId s.cards).isSome then s
  else
    { s with
      cards := setKey cardId
        { x := x, y := y, vx := 0, vy := 0, targetX := x, targetY := y,
          isDragging := false, dragOffsetX := 0, dragOffsetY := 0, cardId := cardId }
        s.cards,
      cardQuadtree :=
        s.cardQuadtree.insert qtCapacity qtMaxLevel qtFuel cardId ⟨x, y, 200, 150⟩ }

/-- `CanvasEngine.updateCardPosition`: only the target moves, and only when
the card is not being dragged; the spatial index entry is refreshed. -/
def CanvasState.updateCardPosition (s : CanvasState) (cardId : String) (x y : ℚ) :
    CanvasState :=
  match lookupKey cardId s.cards with
  | none => s
  | some st =>
    if st.isDragging then s
    else
      { s with
        cards := setKey cardId { st with targetX := x, targetY := y } s.cards,
        cardQuadtree :=
          ((s.cardQuadtree.removeById id cardId).1).insert qtCapacity qtMaxLevel qtFuel
            cardId ⟨x, y, 200, 150⟩ }

/-- `CanvasEngine.removeCard`.  Note: the source deletes the runtime entry and
destroys the graphics node but never touches `cardQuadtree`. -/
def CanvasState.removeCard (s : CanvasState) (cardId : String) : CanvasState :=
  if (lookupKey cardId s.cards).isSome then
    { s with cards := delKey cardId s.cards }
  else s

/-- A card record of an incoming `hydrate` snapshot (the fields the engine
state consumes). -/
structure CardSnapshot where
  id : String
  x : ℚ
  y : ℚ
deriving DecidableEq

structure ConnSnapshot where
  id : String
  fromId : String
  toId : String
deriving DecidableEq

structure StrokeSnapshot where
  id : String
  points : List P3
deriving DecidableEq

/-- The per-key body of hydrate's card-removal loop: runtime cards absent
from the incoming snapshot are removed. -/
def hydrateRemoveStep (incomingIds : List String) (acc : CanvasState) (i : String) :
    CanvasState :=
  if incomingIds.contains i then acc else acc.removeCard i

/-- The per-record body of hydrate's card loop: create new cards, and update
only the target position of existing ones unless they are being dragged
locally (`updateCardText` only rewrites the rendering text node, so it does
not appear in the modelled state). -/
def hydrateCardStep (acc : CanvasState) (c : CardSnapshot) : CanvasState :=
  match lookupKey c.id acc.cards with
  | none => acc.createCard c.id c.x c.y
  | some st => if st.isDragging then acc else acc.updateCardPosition c.id c.x c.y

/-- The per-record body of hydrate's connection loop. -/
def hydrateConnStep (acc : CanvasState) (c : ConnSnapshot) : CanvasState :=
  if (lookupKey c.id acc.connections).isSome then acc
  else { acc with connections := setKey c.id ⟨c.id, c.fromId, c.toId⟩ acc.connections }

/-- The per-record body of hydrate's stroke-addition loop (the set of already
present ids is computed once, before the loop, as in the source). -/
def hydrateStrokeStep (existingIds : List String) (acc : CanvasState)
    (st : StrokeSnapshot) : CanvasState :=
  if existingIds.contains st.id then acc
  else { acc with strokes := acc.strokes ++ [(st.id, st.points)] }

/-- `CanvasEngine.hydrate(cards, connections, strokes)`. -/
def CanvasState.hydrate (s : CanvasState) (cards : List CardSnapshot)
    (connections : List ConnSnapshot) (strokes : List StrokeSnapshot) : CanvasState :=
  -- 1. Cards
  let incomingCardIds := cards.map (fun c => c.id)
  let s1 := (s.cards.map Prod.fst).foldl (hydrateRemoveStep incomingCardIds) s
  let s2 := cards.foldl hydrateCardStep s1
  -- 2. Connections
  let incomingConnIds := connections.map (fun c => c.id)
  let s3 := { s2 with
      connections := s2.connections.filter (fun p => incomingConnIds.contains p.1) }
  let s4 := connections.foldl hydrateConnStep s3
  -- 3. Strokes
  let incomingStrokeIds := strokes.map (fun st => st.id)
  let s5 := { s4 with
      strokes := s4.strokes.filter (fun p => incomingStrokeIds.contains p.1) }
  strokes.foldl (hydrateStrokeStep (s5.strokes.map Prod.fst)) s5

/-- `` `${fromId}-${toId}` ``: the deterministic connection id. -/
def connId (fromId toId : String) : String := fromId ++ "-" ++ toId

/-- `CanvasEngine.getStrokeBounds`: bounding box of the samples, padded by 20
on every side.  The empty case is unreachable (`startStroke` always seeds one
point; the source would read `points[0]` of an empty array). -/
def getStrokeBounds : List P3 → Rect
  | [] => ⟨0, 0, 0, 0⟩
  | p :: rest =>
    let minX := rest.foldl (fun m q => min m q.1) p.1
    let maxX := rest.foldl (fun m q => max m q.1) p.1
    let minY := rest.foldl (fun m q => min m q.2.1) p.2.1
    let maxY := rest.foldl (fun m q => max m q.2.1) p.2.1
    ⟨minX - 20, minY - 20, maxX - minX + 40, maxY - minY + 40⟩

/-- `CanvasEngine.startStroke`: seed the current stroke with one sample and
push it onto the stroke list (the pushed entry aliases the current stroke).
The freshly generated uuid is a parameter. -/
def CanvasState.startStroke (s : CanvasState) (strokeId : String) (x y pressure : ℚ) :
    CanvasState :=
  { s with
    currentStroke := some (strokeId, [(x, y, pressure)]),
    strokes := s.strokes ++ [(strokeId, [(x, y, pressure)])] }

/-- The synthetic second sample `[p[0]+0.1, p[1]+0.1, p[2]]` appended by
`endStroke` to a single-point stroke. -/
def nudge (p : P3) : P3 := (p.1 + 1/10, p.2.1 + 1/10, p.2.2)

/-- `CanvasEngine.endStroke`: pad a single-point stroke to two points, report
the finished stroke to the persistence collaborator (`onStrokeFinished`,
returned as the second component) and index it spatially. -/
def CanvasState.endStroke (s : CanvasState) : CanvasState × Option (String × List P3) :=
  match s.currentStroke with
  | none => (s, none)
  | some cur =>
    let pts := if cur.2.length < 2 then
        match cur.2 with
        | p :: _ => cur.2 ++ [nudge p]
        | [] => cur.2
      else cur.2
    ({ s with
        strokes := setKey cur.1 pts s.strokes,
        strokeQuadtree :=
          s.strokeQuadtree.insert qtCapacity qtMaxLevel qtFuel (cur.1, pts)
            (getStrokeBounds pts),
        currentStroke := none },
     some (cur.1, pts))

/-- `CanvasEngine.distToSegment`, modelled as its square (the source compares
the distance against the radius; we compare squares, which is equivalent). -/
def distSqToSegment (px py x1 y1 x2 y2 : ℚ) : ℚ :=
  let l2 := (x1 - x2) ^ 2 + (y1 - y2) ^ 2
  if l2 = 0 then (px - x1) ^ 2 + (py - y1) ^ 2
  else
    let t := ((px - x1) * (x2 - x1) + (py - y1) * (y2 - y1)) / l2
    let t1 := max 0 (min 1 t)
    (px - (x1 + t1 * (x2 - x1))) ^ 2 + (py - (y1 + t1 * (y2 - y1))) ^ 2

/-- The consecutive sample pairs of a stroke (the segments `eraseAt` tests). -/
def segPairs (ps : List P3) : List (P3 × P3) := ps.zip ps.tail

/-- The per-stroke hit test of `eraseAt`: some segment lies strictly within
`radius` of the probe point. -/
def strokeHit (lp : ℚ × ℚ) (radius : ℚ) (ps : List P3) : Bool :=
  (segPairs ps).any (fun pq =>
    decide (distSqToSegment lp.1 lp.2 pq.1.1 pq.1.2.1 pq.2.1 pq.2.2.1 < radius ^ 2))

/-- The candidate-collection and hit-filtering part of `eraseAt`: query the
stroke quadtree with a radius-20 box around the probe point and keep, without
duplicates, the id of every candidate with a segment strictly within the
radius. -/
def eraseHits (s : CanvasState) (localPos : ℚ × ℚ) : List String :=
  let radius : ℚ := 20
  let searchBounds : Rect :=
    ⟨localPos.1 - radius, localPos.2 - radius, radius * 2, radius * 2⟩
  let candidates := s.strokeQuadtree.retrieve searchBounds
  candidates.foldl (fun hs item =>
      if strokeHit localPos radius item.2 && !(hs.contains item.1) then hs ++ [item.1]
      else hs) []

/-- The removal part of `eraseAt`: for every hit id, remove it from the
spatial index and from the stroke list (the destroyed graphics node is
rendering state). -/
def eraseApply (hits : List String) (s : CanvasState) : CanvasState :=
  hits.foldl (fun acc i =>
      { acc with
        strokeQuadtree := (acc.strokeQuadtree.removeById Prod.fst i).1,
        strokes := acc.strokes.eraseP (fun st => decide (st.1 = i)) }) s

/-- `CanvasEngine.eraseAt(x, y)`: collect candidate strokes from the spatial
index around the probe point, filter by exact point-to-segment distance, and
remove every hit from the scene, the stroke list and the index, reporting each
removal (`onStrokeDeleted`, returned as the id list). -/
def CanvasState.eraseAt (s : CanvasState) (x y : ℚ) : CanvasState × List String :=
  let localPos := screenToWorld s.viewport (x, y)
  let hits := eraseHits s localPos
  (eraseApply hits s, hits)

/-! ## Document store (src/core/document_store.ts) -/

/-- `CardData`. -/
structure StoreCardData where
  id : String
  x : ℚ
  y : ℚ
  width : ℚ
  height : ℚ
  color : ℤ
  text : String
  imageUrl : Option String
  createdAt : ℤ
  updatedAt : ℤ
deriving DecidableEq

/-- `StrokeData`. -/
structure StoreStrokeData where
  id : String
  points : List P3
  color : ℤ
  width : ℚ
deriving DecidableEq

/-- The three Yjs record maps (`BoardData` snapshot shape). -/
structure StoreState where
  cards : List (String × StoreCardData)
  connections : List (String × ConnectionR)
  strokes : List (String × StoreStrokeData)
deriving DecidableEq

/-- A `Partial<CardData>` update object (the fields host code patches). -/
structure CardPatch where
  x : Option ℚ
  y : Option ℚ
  width : Option ℚ
  height : Option ℚ
  color : Option ℤ
  text : Option String
  imageUrl : Option (Option String)
deriving DecidableEq

/-- The object spread `{...card, ...updates}`. -/
def applyPatch (c : StoreCardData) (p : CardPatch) : StoreCardData :=
  { c with
    x := p.x.getD c.x, y := p.y.getD c.y,
    width := p.width.getD c.width, height := p.height.getD c.height,
    color := p.color.getD c.color, text := p.text.getD c.text,
    imageUrl := p.imageUrl.getD c.imageUrl }

/-- `DocumentStore.updateCard` (`now` stands for `Date.now()`). -/
def StoreState.updateCard (s : StoreState) (now : ℤ) (i : String) (p : CardPatch) :
    StoreState :=
  match lookupKey i s.cards with
  | none => s
  | some card =>
      { s with cards := setKey i { applyPatch card p with updatedAt := now } s.cards }

/-- `DocumentStore.updateCardPosition`. -/
def StoreState.updateCardPosition (s : StoreState) (now : ℤ) (i : String) (x y : ℚ) :
    StoreState :=
  match lookupKey i s.cards with
  | none => s
  | some card =>
      { s with cards := setKey i { card with x := x, y := y, updatedAt := now } s.cards }

/-- `DocumentStore.deleteCard` (a `Y.Map.delete` of an absent key is a no-op). -/
def StoreState.deleteCard (s : StoreState) (i : String) : StoreState :=
  { s with cards := delKey i s.cards }

/-- `DocumentStore.createConnection`. -/
def StoreState.createConnection (s : StoreState) (fromId toId : String) : StoreState :=
  let i := connId fromId toId
  if (lookupKey i s.connections).isSome then s
  else { s with connections := setKey i ⟨i, fromId, toId⟩ s.connections }

/-- `DocumentStore.addStroke`. -/
def StoreState.addStroke (s : StoreState) (st : StoreStrokeData) : StoreState :=
  { s with strokes := setKey st.id st s.strokes }

/-- `DocumentStore.deleteStroke`. -/
def StoreState.deleteStroke (s : StoreState) (i : String) : StoreState :=
  { s with strokes := delKey i s.strokes }

/-- Engine plus store, wired as in `App.tsx` (the engine's
`onConnectionCreated` callback forwards to `documentStore.createConnection`). -/
structure System where
  engine : CanvasState
  store : StoreState
deriving DecidableEq

/-- `CanvasEngine.createConnection(fromId, toId)` together with the wired
persistence callback. -/
def System.createConnection (sys : System) (fromId toId : String) : System :=
  let i := connId fromId toId
  if (lookupKey i sys.engine.connections).isSome then sys
  else
    { engine := { sys.engine with
        connections := setKey i ⟨i, fromId, toId⟩ sys.engine.connections },
      store := sys.store.createConnection fromId toId }

/-! ## Interaction state machine (src/core/interaction_manager.ts) -/

/-- `InteractionMode`. -/
inductive IMode
  | idle | panning | dragging | selecting | drawing | erasing | connecting | editing
deriving DecidableEq

/-- The calls the interaction manager makes into the engine / host, modelled
as emitted events. -/
inductive EngineCmd
  | editStart (cardId : String)
  | startDrag (cardId : String)
  | createConn (fromId toId : String)
  | clearSelectionBox
deriving DecidableEq

/-- The fields of `InteractionManager` (mode, selection, double-click
tracking, rubber-band anchor, pending connection source). -/
structure IMState where
  mode : IMode
  isSpacePressed : Bool
  selectedCardIds : List String
  lastClickTime : ℤ
  lastClickedCardId : Option String
  dragStart : Option (ℚ × ℚ)
  connectionStartId : Option String
deriving DecidableEq

/-- `InteractionManager.handleCardDown` (`now` stands for `Date.now()`;
`updateSelectionVisuals` is rendering-only and not modelled). -/
def IMState.handleCardDown (st : IMState) (now : ℤ) (shiftKey : Bool) (cardId : String) :
    IMState × List EngineCmd :=
  if st.isSpacePressed then (st, [])
  else if st.lastClickedCardId = some cardId ∧ now - st.lastClickTime < 500 then
    ({ st with mode := .editing }, [.editStart cardId])
  else
    let st1 := { st with lastClickTime := now, lastClickedCardId := some cardId }
    let st2 :=
      if !shiftKey && !(st1.selectedCardIds.contains cardId) then
        { st1 with selectedCardIds := [] }
      else st1
    let st3 := { st2 with selectedCardIds :=
        if st2.selectedCardIds.contains cardId then st2.selectedCardIds
        else st2.selectedCardIds ++ [cardId] }
    if st3.mode = .connecting then
      ({ st3 with connectionStartId := some cardId }, [])
    else
      ({ st3 with mode := .dragging }, [.startDrag cardId])

/-- `InteractionManager.handleCardUp`. -/
def IMState.handleCardUp (st : IMState) (cardId : String) : IMState × List EngineCmd :=
  match st.connectionStartId with
  | some startId =>
    if st.mode = .connecting then
      ({ st with connectionStartId := none },
       if startId ≠ cardId then [.createConn startId cardId] else [])
    else (st, [])
  | none => (st, [])

/-- `InteractionManager.handleGlobalUp`: only the rubber-band selection is
finalised; no other mode is touched. -/
def IMState.handleGlobalUp (st : IMState) : IMState × List EngineCmd :=
  if st.mode = .selecting then
    ({ st with mode := .idle, dragStart := none }, [.clearSelectionBox])
  else (st, [])

/-! ## Concrete scenarios -/

/-- A fresh viewport (engine constructor). -/
def emptyViewport : ViewportState :=
  { x := 0, y := 0, scale := 1, vx := 0, vy := 0,
    isDragging := false, lastPointerX := 0, lastPointerY := 0 }

/-- A freshly constructed engine: no entities, empty quadtrees over the world
bounds, identity viewport. -/
def emptyCanvas : CanvasState :=
  { cards := [], connections := [], strokes := [], currentStroke := none,
    cardQuadtree := Quadtree.leaf engineWorldBounds 0 [],
    strokeQuadtree := Quadtree.leaf engineWorldBounds 0 [],
    viewport := emptyViewport }

/-- An empty document store. -/
def emptyStore : StoreState := { cards := [], connections := [], strokes := [] }

/-- Insertion sequence refuting the unrestricted spatial-superset claim: ten
small in-world items force a split, and one item lying left of the world
bounds gets classified into the NW child even though it is nowhere near it. -/
def cexItems : List (String × Rect) :=
  [("bad", ⟨-60000, -10, 10, 5⟩),
   ("f1", ⟨10, 10, 5, 5⟩), ("f2", ⟨10, 10, 5, 5⟩), ("f3", ⟨10, 10, 5, 5⟩),
   ("f4", ⟨10, 10, 5, 5⟩), ("f5", ⟨10, 10, 5, 5⟩), ("f6", ⟨10, 10, 5, 5⟩),
   ("f7", ⟨10, 10, 5, 5⟩), ("f8", ⟨10, 10, 5, 5⟩), ("f9", ⟨10, 10, 5, 5⟩),
   ("f10", ⟨10, 10, 5, 5⟩)]

/-- The tree built by inserting `cexItems` into the engine's (empty) quadtree. -/
def cexTree : Quadtree String :=
  cexItems.foldl (fun t p => t.insert qtCapacity qtMaxLevel qtFuel p.1 p.2)
    (Quadtree.leaf engineWorldBounds 0 [])

/-- A query straddling the horizontal midline next to the out-of-world item. -/
def cexQuery : Rect := ⟨-60000, -10, 10, 20⟩

/-- The spec's physics-settling scenario: target `(100, 100)`, start `(0, 0)`,
at rest, not dragged. -/
def settleStart : PhysicsState :=
  { x := 0, y := 0, vx := 0, vy := 0, targetX := 100, targetY := 100,
    isDragging := false, dragOffsetX := 0, dragOffsetY := 0, cardId := "card" }

/-- The card state after `n` physics ticks of the settling scenario. -/
def settleState : ℕ → PhysicsState
  | 0 => settleStart
  | n + 1 => physicsTickCard PHYSICS_CONFIG (settleState n)

/-- Squared distance of the settling card from its `(100, 100)` target. -/
def settleDistSq (n : ℕ) : ℚ :=
  (100 - (settleState n).x) ^ 2 + (100 - (settleState n).y) ^ 2

/-- The settling claim as stated by the spec: within half a unit of the
target after a bounded number of ticks, and exactly zero velocity from then
on. -/
def settleClaim : Prop :=
  ∃ N : ℕ, settleDistSq N < 1/4 ∧
    ∀ n : ℕ, N ≤ n → (settleState n).vx = 0 ∧ (settleState n).vy = 0

/-- Interaction manager in Connecting mode with no pending source and no
recent click. -/
def c9Start : IMState :=
  { mode := .connecting, isSpacePressed := false, selectedCardIds := [],
    lastClickTime := 0, lastClickedCardId := none, dragStart := none,
    connectionStartId := none }

/-- Interaction manager in Connecting mode with card `"A"` recorded as the
pending connection source. -/
def c9Pending : IMState := { c9Start with connectionStartId := some "A" }

/-- An engine holding one indexed two-point stroke (as produced by drawing a
stroke from `(0,0)` to `(10,10)`). -/
def w8canvas : CanvasState :=
  { emptyCanvas with
    strokes := [("s1", [(0, 0, 1/2), (10, 10, 1/2)])],
    strokeQuadtree := Quadtree.leaf engineWorldBounds 0
      [(("s1", [(0, 0, 1/2), (10, 10, 1/2)]),
        getStrokeBounds [(0, 0, 1/2), (10, 10, 1/2)])] }

/-! ## Basic lemmas about the embedded geometry and maps -/


theorem Rect.containedIn_trans {a b c : Rect}
    (h1 : a.containedIn b) (h2 : b.containedIn c) : a.containedIn c := by
  obtain ⟨p1, p2, p3, p4⟩ := h1
  obtain ⟨q1, q2, q3, q4⟩ := h2
  exact ⟨le_trans q1 p1, le_trans p2 q2, le_trans q3 p3, le_trans p4 q4⟩

theorem Rect.intersects_of_containedIn {b c q : Rect}
    (hbc : b.containedIn c) (hbq : b.intersects q) : c.intersects q := by
  obtain ⟨p1, p2, p3, p4⟩ := hbc
  obtain ⟨i1, i2, i3, i4⟩ := hbq
  exact ⟨lt_of_le_of_lt p1 i1, lt_of_lt_of_le i2 p2,
         lt_of_le_of_lt p3 i3, lt_of_lt_of_le i4 p4⟩

theorem lookupKey_setKey_self {β : Type} (i : String) (v : β) (l : List (String × β)) :
    lookupKey i (setKey i v l) = some v := by
  induction l with
  | nil => simp [setKey, lookupKey]
  | cons hd tl ih =>
    by_cases h : hd.1 = i
    · simp [setKey, h, lookupKey]
    · simp [setKey, h, lookupKey, ih]

theorem lookupKey_setKey_ne {β : Type} (i j : String) (v : β) (l : List (String × β))
    (hij : j ≠ i) : lookupKey i (setKey j v l) = lookupKey i l := by
  induction l with
  | nil => simp [setKey, lookupKey, hij]
  | cons hd tl ih =>
    by_cases h : hd.1 = j
    · simp [setKey, h, lookupKey, hij]
    · simp [setKey, h, lookupKey, ih]

theorem lookupKey_delKey_ne {β : Type} (i j : String) (l : List (String × β))
    (hij : j ≠ i) : lookupKey i (delKey j l) = lookupKey i l := by
  induction l with
  | nil => simp [delKey]
  | cons hd tl ih =>
    by_cases h : hd.1 = j
    · simp [delKey, h, lookupKey, hij]
    · simp [delKey, h, lookupKey, ih]

theorem delKey_of_lookupKey_none {β : Type} (i : String) (l : List (String × β))
    (h : lookupKey i l = none) : delKey i l = l := by
  induction l with
  | nil => rfl
  | cons hd tl ih =>
    by_cases hk : hd.1 = i
    · simp [lookupKey, hk] at h
    · simp [delKey, hk]
      exact ih (by simpa [lookupKey, hk] using h)

/-! ## Quadtree lemmas -/

theorem Rect.intersects_def (a b : Rect) :
    a.intersects b ↔
      (a.x < b.x + b.width ∧ a.x + a.width > b.x ∧
       a.y < b.y + b.height ∧ a.y + a.height > b.y) := Iff.rfl

theorem Rect.containedIn_def (a b : Rect) :
    a.containedIn b ↔
      (b.x ≤ a.x ∧ a.x + a.width ≤ b.x + b.width ∧
       b.y ≤ a.y ∧ a.y + a.height ≤ b.y + b.height) := Iff.rfl

namespace Quadtree

variable {α : Type}

theorem not_intersects_of_left {b q : Rect} {vm : ℚ}
    (hq : q.x + q.width < vm) (hb : vm ≤ b.x) : ¬ b.intersects q := by
  intro hint; rw [Rect.intersects_def] at hint
  obtain ⟨i1, i2, i3, i4⟩ := hint; linarith

theorem not_intersects_of_right {b q : Rect} {vm : ℚ}
    (hq : vm < q.x) (hb : b.x + b.width ≤ vm) : ¬ b.intersects q := by
  intro hint; rw [Rect.intersects_def] at hint
  obtain ⟨i1, i2, i3, i4⟩ := hint; linarith

theorem not_intersects_of_top {b q : Rect} {hm : ℚ}
    (hq : q.y + q.height < hm) (hb : hm ≤ b.y) : ¬ b.intersects q := by
  intro hint; rw [Rect.intersects_def] at hint
  obtain ⟨i1, i2, i3, i4⟩ := hint; linarith

theorem not_intersects_of_bottom {b q : Rect} {hm : ℚ}
    (hq : hm < q.y) (hb : b.y + b.height ≤ hm) : ¬ b.intersects q := by
  intro hint; rw [Rect.intersects_def] at hint
  obtain ⟨i1, i2, i3, i4⟩ := hint; linarith

theorem quadOf_containedIn {bd : Rect} (q : Quad)
    (hw : 0 ≤ bd.width) (hh : 0 ≤ bd.height) : (quadOf q bd).containedIn bd := by
  cases q <;>
    simp only [quadOf, Rect.containedIn_def] <;>
    refine ⟨by linarith, by linarith, by linarith, by linarith⟩

theorem quadOf_width {bd : Rect} (q : Quad) : (quadOf q bd).width = bd.width / 2 := by
  cases q <;> rfl

theorem quadOf_height {bd : Rect} (q : Quad) : (quadOf q bd).height = bd.height / 2 := by
  cases q <;> rfl

/-- Strict-fit classification really lands an in-bounds rect inside the
corresponding quadrant. -/
theorem containedIn_quadOf_of_getIndex {bd b : Rect} {q : Quad}
    (hb : b.containedIn bd) (hgi : getIndex bd b = some q) :
    b.containedIn (quadOf q bd) := by
  rw [Rect.containedIn_def] at hb
  obtain ⟨hb1, hb2, hb3, hb4⟩ := hb
  simp only [getIndex] at hgi
  split_ifs at hgi with h1 h2 h3 h4 h5 h6 <;>
    simp only [Option.some.injEq] at hgi <;> subst hgi <;>
    simp only [quadOf, Rect.containedIn_def] <;>
    constructor <;> try constructor
  all_goals try constructor
  all_goals first
    | linarith [h1.1, h1.2]
    | (try obtain ⟨h2a, h2b⟩ := h2); (try obtain ⟨h5a, h5b⟩ := h5); linarith

/-- If the query strictly fits quadrant `i`, then nothing contained in a
different quadrant `c` can intersect the query. -/
theorem not_intersects_of_other_quad {bd q b : Rect} {i c : Quad}
    (hgi : getIndex bd q = some i) (hne : c ≠ i)
    (hb : b.containedIn (quadOf c bd)) : ¬ b.intersects q := by
  have hbc := hb
  rw [Rect.containedIn_def] at hbc
  simp only [quadOf] at hbc
  obtain ⟨hb1, hb2, hb3, hb4⟩ := hbc
  simp only [getIndex] at hgi
  split_ifs at hgi with h1 h2 h3 h4 h5 h6 <;>
    simp only [Option.some.injEq] at hgi <;> subst hgi <;> cases c <;>
    first
      | exact absurd rfl hne
      | exact not_intersects_of_left h1.2 (by simpa using hb1)
      | exact not_intersects_of_right h3 (by simpa using hb2)
      | exact not_intersects_of_right h4 (by simpa using hb2)
      | exact not_intersects_of_top h2.2 (by simpa using hb3)
      | exact not_intersects_of_top h5.2 (by simpa using hb3)
      | exact not_intersects_of_bottom h3 (by simpa using hb4)
      | exact not_intersects_of_bottom h6 (by simpa using hb4)

theorem WF_leaf_iff {bd : Rect} {lvl : ℕ} {objs : List (α × Rect)} :
    WF (Quadtree.leaf bd lvl objs) ↔
      (0 ≤ bd.width ∧ 0 ≤ bd.height ∧ ∀ p ∈ objs, p.2.containedIn bd) := Iff.rfl

theorem WF_branch_iff {bd : Rect} {lvl : ℕ} {objs : List (α × Rect)}
    {ne nw sw se : Quadtree α} :
    WF (Quadtree.branch bd lvl objs ne nw sw se) ↔
      (0 ≤ bd.width ∧ 0 ≤ bd.height ∧ (∀ p ∈ objs, p.2.containedIn bd) ∧
       ne.bounds = quadOf .ne bd ∧ nw.bounds = quadOf .nw bd ∧
       sw.bounds = quadOf .sw bd ∧ se.bounds = quadOf .se bd ∧
       WF ne ∧ WF nw ∧ WF sw ∧ WF se) := Iff.rfl

/-- In a well-formed tree every stored object lies inside the root bounds. -/
theorem containedIn_bounds_of_mem_allObjects :
    ∀ (t : Quadtree α), WF t → ∀ p ∈ t.allObjects, p.2.containedIn t.bounds
  | .leaf bd lvl objs, hwf, p, hp => (WF_leaf_iff.mp hwf).2.2 p hp
  | .branch bd lvl objs ne nw sw se, hwf, p, hp => by
    obtain ⟨hw, hh, hobjs, bne, bnw, bsw, bse, wne, wnw, wsw, wse⟩ := WF_branch_iff.mp hwf
    simp only [allObjects, List.mem_append] at hp
    rcases hp with hp | hp | hp | hp | hp
    · exact hobjs p hp
    · have h1 := containedIn_bounds_of_mem_allObjects ne wne p hp
      rw [bne] at h1
      exact Rect.containedIn_trans h1 (quadOf_containedIn .ne hw hh)
    · have h1 := containedIn_bounds_of_mem_allObjects nw wnw p hp
      rw [bnw] at h1
      exact Rect.containedIn_trans h1 (quadOf_containedIn .nw hw hh)
    · have h1 := containedIn_bounds_of_mem_allObjects sw wsw p hp
      rw [bsw] at h1
      exact Rect.containedIn_trans h1 (quadOf_containedIn .sw hw hh)
    · have h1 := containedIn_bounds_of_mem_allObjects se wse p hp
      rw [bse] at h1
      exact Rect.containedIn_trans h1 (quadOf_containedIn .se hw hh)

/-- Retrieve completeness: in a well-formed tree, a query returns (a superset
containing) every stored item whose stored bounds intersect the query. -/
theorem mem_retrieve_of_intersects :
    ∀ (t : Quadtree α) (q : Rect) (x : α × Rect),
      WF t → x ∈ t.allObjects → x.2.intersects q → x.1 ∈ t.retrieve q
  | .leaf bd lvl objs, q, x, _, hmem, _ => by
    simpa [retrieve] using List.mem_map_of_mem Prod.fst hmem
  | .branch bd lvl objs ne nw sw se, q, x, hwf, hmem, hint => by
    obtain ⟨hw, hh, hobjs, bne, bnw, bsw, bse, wne, wnw, wsw, wse⟩ := WF_branch_iff.mp hwf
    simp only [allObjects, List.mem_append] at hmem
    simp only [retrieve, List.mem_append]
    rcases hmem with hmem | hmem | hmem | hmem | hmem
    · exact Or.inr (List.mem_map_of_mem Prod.fst hmem)
    -- the four child cases
    · refine Or.inl ?_
      have hcont := containedIn_bounds_of_mem_allObjects ne wne x hmem
      cases hgi : getIndex bd q with
      | none =>
        have hi : ne.bounds.intersects q :=
          Rect.intersects_of_containedIn hcont hint
        simp only [List.mem_append]
        exact Or.inl (by
          rw [if_pos hi]
          exact mem_retrieve_of_intersects ne q x wne hmem hint)
      | some i =>
        cases i with
        | ne => exact mem_retrieve_of_intersects ne q x wne hmem hint
        | nw => exact absurd hint (not_intersects_of_other_quad hgi (by simp) (bne ▸ hcont))
        | sw => exact absurd hint (not_intersects_of_other_quad hgi (by simp) (bne ▸ hcont))
        | se => exact absurd hint (not_intersects_of_other_quad hgi (by simp) (bne ▸ hcont))
    · refine Or.inl ?_
      have hcont := containedIn_bounds_of_mem_allObjects nw wnw x hmem
      cases hgi : getIndex bd q with
      | none =>
        have hi : nw.bounds.intersects q :=
          Rect.intersects_of_containedIn hcont hint
        simp only [List.mem_append]
        refine Or.inr (Or.inl ?_)
        rw [if_pos hi]
        exact mem_retrieve_of_intersects nw q x wnw hmem hint
      | some i =>
        cases i with
        | nw => exact mem_retrieve_of_intersects nw q x wnw hmem hint
        | ne => exact absurd hint (not_intersects_of_other_quad hgi (by simp) (bnw ▸ hcont))
        | sw => exact absurd hint (not_intersects_of_other_quad hgi (by simp) (bnw ▸ hcont))
        | se => exact absurd hint (not_intersects_of_other_quad hgi (by simp) (bnw ▸ hcont))
    · refine Or.inl ?_
      have hcont := containedIn_bounds_of_mem_allObjects sw wsw x hmem
      cases hgi : getIndex bd q with
      | none =>
        have hi : sw.bounds.intersects q :=
          Rect.intersects_of_containedIn hcont hint
        simp only [List.mem_append]
        refine Or.inr (Or.inr (Or.inl ?_))
        rw [if_pos hi]
        exact mem_retrieve_of_intersects sw q x wsw hmem hint
      | some i =>
        cases i with
        | sw => exact mem_retrieve_of_intersects sw q x wsw hmem hint
        | ne => exact absurd hint (not_intersects_of_other_quad hgi (by simp) (bsw ▸ hcont))
        | nw => exact absurd hint (not_intersects_of_other_quad hgi (by simp) (bsw ▸ hcont))
        | se => exact absurd hint (not_intersects_of_other_quad hgi (by simp) (bsw ▸ hcont))
    · refine Or.inl ?_
      have hcont := containedIn_bounds_of_mem_allObjects se wse x hmem
      cases hgi : getIndex bd q with
      | none =>
        have hi : se.bounds.intersects q :=
          Rect.intersects_of_containedIn hcont hint
        simp only [List.mem_append]
        refine Or.inr (Or.inr (Or.inr ?_))
        rw [if_pos hi]
        exact mem_retrieve_of_intersects se q x wse hmem hint
      | some i =>
        cases i with
        | se => exact mem_retrieve_of_intersects se q x wse hmem hint
        | ne => exact absurd hint (not_intersects_of_other_quad hgi (by simp) (bse ▸ hcont))
        | nw => exact absurd hint (not_intersects_of_other_quad hgi (by simp) (bse ▸ hcont))
        | sw => exact absurd hint (not_intersects_of_other_quad hgi (by simp) (bse ▸ hcont))

theorem redistribute_bounds (ins : Quadtree α → α → Rect → Quadtree α) (bd : Rect)
    (lvl : ℕ) :
    ∀ (rem stay : List (α × Rect)) (ne nw sw se : Quadtree α),
      (redistribute ins bd lvl rem stay ne nw sw se).bounds = bd
  | [], _, _, _, _, _ => rfl
  | o :: rest, stay, ne, nw, sw, se => by
    simp only [redistribute]
    cases getIndex bd o.2 with
    | none => exact redistribute_bounds ins bd lvl rest (stay ++ [o]) ne nw sw se
    | some q => cases q <;> apply redistribute_bounds

theorem pushObj_bounds (t : Quadtree α) (it : α) (b : Rect) :
    (t.pushObj it b).bounds = t.bounds := by
  cases t <;> rfl

theorem insert_bounds (cap maxLvl : ℕ) :
    ∀ (fuel : ℕ) (t : Quadtree α) (it : α) (b : Rect),
      (insert cap maxLvl fuel t it b).bounds = t.bounds
  | 0, t, it, b => pushObj_bounds t it b
  | fuel + 1, .leaf bd lvl objs, it, b => by
    simp only [insert]
    split
    · exact redistribute_bounds _ bd lvl _ _ _ _ _ _
    · rfl
  | fuel + 1, .branch bd lvl objs ne nw sw se, it, b => by
    simp only [insert]
    cases getIndex bd b with
    | none =>
      simp only []
      split
      · exact redistribute_bounds _ bd lvl _ _ _ _ _ _
      · rfl
    | some q => cases q <;> rfl

theorem mem_allObjects_pushObj (t : Quadtree α) (it : α) (b : Rect) (x : α × Rect)
    (hx : x = (it, b) ∨ x ∈ t.allObjects) : x ∈ (t.pushObj it b).allObjects := by
  cases t <;> simp only [pushObj, allObjects, List.mem_append, List.mem_singleton] <;>
    simp only [allObjects, List.mem_append] at hx <;> tauto

/-- Redistribution loses no object: the result holds everything from the
remaining bucket, the kept bucket and the four children (given that `ins`
itself loses nothing). -/
theorem mem_redistribute (ins : Quadtree α → α → Rect → Quadtree α)
    (hins : ∀ (t : Quadtree α) (it : α) (b : Rect) (x : α × Rect),
      (x = (it, b) ∨ x ∈ t.allObjects) → x ∈ (ins t it b).allObjects)
    (bd : Rect) (lvl : ℕ) :
    ∀ (rem stay : List (α × Rect)) (ne nw sw se : Quadtree α) (x : α × Rect),
      (x ∈ rem ∨ x ∈ stay ∨ x ∈ ne.allObjects ∨ x ∈ nw.allObjects ∨
       x ∈ sw.allObjects ∨ x ∈ se.allObjects) →
      x ∈ (redistribute ins bd lvl rem stay ne nw sw se).allObjects
  | [], stay, ne, nw, sw, se, x, hx => by
    simp only [redistribute, allObjects, List.mem_append]
    simp only [List.not_mem_nil, false_or] at hx
    tauto
  | o :: rest, stay, ne, nw, sw, se, x, hx => by
    have hsplit : x = o ∨
        (x ∈ rest ∨ x ∈ stay ∨ x ∈ ne.allObjects ∨ x ∈ nw.allObjects ∨
         x ∈ sw.allObjects ∨ x ∈ se.allObjects) := by
      rcases hx with hx | hx
      · rcases List.mem_cons.mp hx with hx | hx
        · exact Or.inl hx
        · exact Or.inr (Or.inl hx)
      · exact Or.inr (Or.inr hx)
    simp only [redistribute]
    cases hgi : getIndex bd o.2 with
    | none =>
      apply mem_redistribute ins hins bd lvl rest (stay ++ [o]) ne nw sw se x
      rcases hsplit with hx | hx
      · exact Or.inr (Or.inl (by simp [hx]))
      · rcases hx with hx | hx | hx
        · exact Or.inl hx
        · exact Or.inr (Or.inl (by simp [hx]))
        · exact Or.inr (Or.inr hx)
    | some q =>
      cases q with
      | ne =>
        apply mem_redistribute ins hins bd lvl rest stay (ins ne o.1 o.2) nw sw se x
        rcases hsplit with hx | hx
        · exact Or.inr (Or.inr (Or.inl (hins ne o.1 o.2 x (Or.inl (by simp [hx])))))
        · rcases hx with hx | hx | hx | hx | hx | hx
          · exact Or.inl hx
          · exact Or.inr (Or.inl hx)
          · exact Or.inr (Or.inr (Or.inl (hins ne o.1 o.2 x (Or.inr hx))))
          · exact Or.inr (Or.inr (Or.inr (Or.inl hx)))
          · exact Or.inr (Or.inr (Or.inr (Or.inr (Or.inl hx))))
          · exact Or.inr (Or.inr (Or.inr (Or.inr (Or.inr hx))))
      | nw =>
        apply mem_redistribute ins hins bd lvl rest stay ne (ins nw o.1 o.2) sw se x
        rcases hsplit with hx | hx
        · exact Or.inr (Or.inr (Or.inr (Or.inl
            (hins nw o.1 o.2 x (Or.inl (by simp [hx]))))))
        · rcases hx with hx | hx | hx | hx | hx | hx
          · exact Or.inl hx
          · exact Or.inr (Or.inl hx)
          · exact Or.inr (Or.inr (Or.inl hx))
          · exact Or.inr (Or.inr (Or.inr (Or.inl (hins nw o.1 o.2 x (Or.inr hx)))))
          · exact Or.inr (Or.inr (Or.inr (Or.inr (Or.inl hx))))
          · exact Or.inr (Or.inr (Or.inr (Or.inr (Or.inr hx))))
      | sw =>
        apply mem_redistribute ins hins bd lvl rest stay ne nw (ins sw o.1 o.2) se x
        rcases hsplit with hx | hx
        · exact Or.inr (Or.inr (Or.inr (Or.inr (Or.inl
            (hins sw o.1 o.2 x (Or.inl (by simp [hx])))))))
        · rcases hx with hx | hx | hx | hx | hx | hx
          · exact Or.inl hx
          · exact Or.inr (Or.inl hx)
          · exact Or.inr (Or.inr (Or.inl hx))
          · exact Or.inr (Or.inr (Or.inr (Or.inl hx)))
          · exact Or.inr (Or.inr (Or.inr (Or.inr (Or.inl
              (hins sw o.1 o.2 x (Or.inr hx))))))
          · exact Or.inr (Or.inr (Or.inr (Or.inr (Or.inr hx))))
      | se =>
        apply mem_redistribute ins hins bd lvl rest stay ne nw sw (ins se o.1 o.2) x
        rcases hsplit with hx | hx
        · exact Or.inr (Or.inr (Or.inr (Or.inr (Or.inr
            (hins se o.1 o.2 x (Or.inl (by simp [hx])))))))
        · rcases hx with hx | hx | hx | hx | hx | hx
          · exact Or.inl hx
          · exact Or.inr (Or.inl hx)
          · exact Or.inr (Or.inr (Or.inl hx))
          · exact Or.inr (Or.inr (Or.inr (Or.inl hx)))
          · exact Or.inr (Or.inr (Or.inr (Or.inr (Or.inl hx))))
          · exact Or.inr (Or.inr (Or.inr (Or.inr (Or.inr
              (hins se o.1 o.2 x (Or.inr hx))))))

/-- Insertion loses no object and records the new one. -/
theorem mem_insert (cap maxLvl : ℕ) :
    ∀ (fuel : ℕ) (t : Quadtree α) (it : α) (b : Rect) (x : α × Rect),
      (x = (it, b) ∨ x ∈ t.allObjects) → x ∈ (insert cap maxLvl fuel t it b).allObjects
  | 0, t, it, b, x, hx => mem_allObjects_pushObj t it b x hx
  | fuel + 1, .leaf bd lvl objs, it, b, x, hx => by
    simp only [insert]
    split
    · apply mem_redistribute _ (mem_insert cap maxLvl fuel) bd lvl _ _ _ _ _ _ x
      simp only [allObjects, List.not_mem_nil, or_false]
      simp only [allObjects] at hx
      rcases hx with hx | hx
      · simp [hx]
      · simp [hx]
    · simp only [allObjects, List.mem_append, List.mem_singleton]
      simp only [allObjects] at hx
      tauto
  | fuel + 1, .branch bd lvl objs ne nw sw se, it, b, x, hx => by
    simp only [insert]
    simp only [allObjects, List.mem_append] at hx
    cases hgi : getIndex bd b with
    | none =>
      simp only []
      split
      · apply mem_redistribute _ (mem_insert cap maxLvl fuel) bd lvl _ _ _ _ _ _ x
        rcases hx with hx | hx | hx | hx | hx | hx
        · exact Or.inl (by simp [hx])
        · exact Or.inl (by simp [hx])
        all_goals tauto
      · simp only [allObjects, List.mem_append, List.mem_singleton]
        tauto
    | some q =>
      cases q <;> simp only [allObjects, List.mem_append] <;>
        rcases hx with hx | hx | hx | hx | hx | hx
      · exact Or.inr (Or.inl (mem_insert cap maxLvl fuel ne it b x (Or.inl hx)))
      · exact Or.inl hx
      · exact Or.inr (Or.inl (mem_insert cap maxLvl fuel ne it b x (Or.inr hx)))
      · tauto
      · tauto
      · tauto
      · exact Or.inr (Or.inr (Or.inl (mem_insert cap maxLvl fuel nw it b x (Or.inl hx))))
      · exact Or.inl hx
      · tauto
      · exact Or.inr (Or.inr (Or.inl (mem_insert cap maxLvl fuel nw it b x (Or.inr hx))))
      · tauto
      · tauto
      · exact Or.inr (Or.inr (Or.inr (Or.inl
          (mem_insert cap maxLvl fuel sw it b x (Or.inl hx)))))
      · exact Or.inl hx
      · tauto
      · tauto
      · exact Or.inr (Or.inr (Or.inr (Or.inl
          (mem_insert cap maxLvl fuel sw it b x (Or.inr hx)))))
      · tauto
      · exact Or.inr (Or.inr (Or.inr (Or.inr
          (mem_insert cap maxLvl fuel se it b x (Or.inl hx)))))
      · exact Or.inl hx
      · tauto
      · tauto
      · tauto
      · exact Or.inr (Or.inr (Or.inr (Or.inr
          (mem_insert cap maxLvl fuel se it b x (Or.inr hx)))))

theorem pushObj_WF (t : Quadtree α) (it : α) (b : Rect)
    (hwf : WF t) (hb : b.containedIn t.bounds) : WF (t.pushObj it b) := by
  cases t with
  | leaf bd lvl objs =>
    obtain ⟨hw, hh, hobjs⟩ := WF_leaf_iff.mp hwf
    refine WF_leaf_iff.mpr ⟨hw, hh, ?_⟩
    intro o ho
    rcases List.mem_append.mp ho with ho | ho
    · exact hobjs o ho
    · rw [List.mem_singleton.mp ho]; exact hb
  | branch bd lvl objs ne nw sw se =>
    obtain ⟨hw, hh, hobjs, bne, bnw, bsw, bse, wne, wnw, wsw, wse⟩ := WF_branch_iff.mp hwf
    refine WF_branch_iff.mpr ⟨hw, hh, ?_, bne, bnw, bsw, bse, wne, wnw, wsw, wse⟩
    intro o ho
    rcases List.mem_append.mp ho with ho | ho
    · exact hobjs o ho
    · rw [List.mem_singleton.mp ho]; exact hb

/-- The redistribution loop preserves well-formedness, given that `ins`
preserves it (and preserves root bounds) for in-bounds payloads. -/
theorem redistribute_WF (ins : Quadtree α → α → Rect → Quadtree α)
    (hinsWF : ∀ (t : Quadtree α) (it : α) (b : Rect),
      WF t → b.containedIn t.bounds → WF (ins t it b))
    (hinsB : ∀ (t : Quadtree α) (it : α) (b : Rect), (ins t it b).bounds = t.bounds)
    (bd : Rect) (lvl : ℕ) (hw : 0 ≤ bd.width) (hh : 0 ≤ bd.height) :
    ∀ (rem stay : List (α × Rect)) (ne nw sw se : Quadtree α),
      (∀ o ∈ rem, o.2.containedIn bd) → (∀ o ∈ stay, o.2.containedIn bd) →
      ne.bounds = quadOf .ne bd → nw.bounds = quadOf .nw bd →
      sw.bounds = quadOf .sw bd → se.bounds = quadOf .se bd →
      WF ne → WF nw → WF sw → WF se →
      WF (redistribute ins bd lvl rem stay ne nw sw se)
  | [], stay, ne, nw, sw, se, _, hstay, bne, bnw, bsw, bse, wne, wnw, wsw, wse => by
    simp only [redistribute]
    exact WF_branch_iff.mpr ⟨hw, hh, hstay, bne, bnw, bsw, bse, wne, wnw, wsw, wse⟩
  | o :: rest, stay, ne, nw, sw, se,
      hrem, hstay, bne, bnw, bsw, bse, wne, wnw, wsw, wse => by
    have hohd : o.2.containedIn bd := hrem o (List.mem_cons_self o rest)
    have hrest : ∀ p ∈ rest, p.2.containedIn bd :=
      fun p hp => hrem p (List.mem_cons_of_mem o hp)
    simp only [redistribute]
    cases hgi : getIndex bd o.2 with
    | none =>
      apply redistribute_WF ins hinsWF hinsB bd lvl hw hh rest (stay ++ [o]) ne nw sw se
        hrest ?_ bne bnw bsw bse wne wnw wsw wse
      intro p hp
      rcases List.mem_append.mp hp with hp | hp
      · exact hstay p hp
      · rw [List.mem_singleton.mp hp]; exact hohd
    | some q =>
      have hq : o.2.containedIn (quadOf q bd) := containedIn_quadOf_of_getIndex hohd hgi
      cases q with
      | ne =>
        exact redistribute_WF ins hinsWF hinsB bd lvl hw hh rest stay
          (ins ne o.1 o.2) nw sw se hrest hstay
          (by rw [hinsB, bne]) bnw bsw bse
          (hinsWF ne o.1 o.2 wne (bne ▸ hq)) wnw wsw wse
      | nw =>
        exact redistribute_WF ins hinsWF hinsB bd lvl hw hh rest stay
          ne (ins nw o.1 o.2) sw se hrest hstay
          bne (by rw [hinsB, bnw]) bsw bse
          wne (hinsWF nw o.1 o.2 wnw (bnw ▸ hq)) wsw wse
      | sw =>
        exact redistribute_WF ins hinsWF hinsB bd lvl hw hh rest stay
          ne nw (ins sw o.1 o.2) se hrest hstay
          bne bnw (by rw [hinsB, bsw]) bse
          wne wnw (hinsWF sw o.1 o.2 wsw (bsw ▸ hq)) wse
      | se =>
        exact redistribute_WF ins hinsWF hinsB bd lvl hw hh rest stay
          ne nw sw (ins se o.1 o.2) hrest hstay
          bne bnw bsw (by rw [hinsB, bse])
          wne wnw wsw (hinsWF se o.1 o.2 wse (bse ▸ hq))

/-- A freshly split child is well-formed. -/
theorem WF_fresh_leaf {bd : Rect} (q : Quad) (lvl : ℕ)
    (hw : 0 ≤ bd.width) (hh : 0 ≤ bd.height) :
    WF (Quadtree.leaf (quadOf q bd) lvl ([] : List (α × Rect))) := by
  refine WF_leaf_iff.mpr ⟨?_, ?_, by simp⟩
  · rw [quadOf_width]; linarith
  · rw [quadOf_height]; linarith

/-- Insertion of an in-bounds item preserves well-formedness. -/
theorem insert_WF (cap maxLvl : ℕ) :
    ∀ (fuel : ℕ) (t : Quadtree α) (it : α) (b : Rect),
      WF t → b.containedIn t.bounds → WF (insert cap maxLvl fuel t it b)
  | 0, t, it, b, hwf, hb => pushObj_WF t it b hwf hb
  | fuel + 1, .leaf bd lvl objs, it, b, hwf, hb => by
    obtain ⟨hw, hh, hobjs⟩ := WF_leaf_iff.mp hwf
    have hall : ∀ o ∈ objs ++ [(it, b)], o.2.containedIn bd := by
      intro o ho
      rcases List.mem_append.mp ho with ho | ho
      · exact hobjs o ho
      · rw [List.mem_singleton.mp ho]; exact hb
    simp only [insert]
    split
    · exact redistribute_WF _ (insert_WF cap maxLvl fuel) (insert_bounds cap maxLvl fuel)
        bd lvl hw hh _ [] _ _ _ _ hall (by simp) rfl rfl rfl rfl
        (WF_fresh_leaf .ne (lvl + 1) hw hh) (WF_fresh_leaf .nw (lvl + 1) hw hh)
        (WF_fresh_leaf .sw (lvl + 1) hw hh) (WF_fresh_leaf .se (lvl + 1) hw hh)
    · exact WF_leaf_iff.mpr ⟨hw, hh, hall⟩
  | fuel + 1, .branch bd lvl objs ne nw sw se, it, b, hwf, hb => by
    obtain ⟨hw, hh, hobjs, bne, bnw, bsw, bse, wne, wnw, wsw, wse⟩ := WF_branch_iff.mp hwf
    have hall : ∀ o ∈ objs ++ [(it, b)], o.2.containedIn bd := by
      intro o ho
      rcases List.mem_append.mp ho with ho | ho
      · exact hobjs o ho
      · rw [List.mem_singleton.mp ho]; exact hb
    simp only [insert]
    cases hgi : getIndex bd b with
    | none =>
      simp only []
      split
      · exact redistribute_WF _ (insert_WF cap maxLvl fuel) (insert_bounds cap maxLvl fuel)
          bd lvl hw hh _ [] _ _ _ _ hall (by simp) bne bnw bsw bse wne wnw wsw wse
      · exact WF_branch_iff.mpr ⟨hw, hh, hall, bne, bnw, bsw, bse, wne, wnw, wsw, wse⟩
    | some q =>
      have hq : b.containedIn (quadOf q bd) := containedIn_quadOf_of_getIndex hb hgi
      cases q with
      | ne =>
        exact WF_branch_iff.mpr ⟨hw, hh, hobjs,
          by rw [insert_bounds, bne], bnw, bsw, bse,
          insert_WF cap maxLvl fuel ne it b wne (bne ▸ hq), wnw, wsw, wse⟩
      | nw =>
        exact WF_branch_iff.mpr ⟨hw, hh, hobjs,
          bne, by rw [insert_bounds, bnw], bsw, bse,
          wne, insert_WF cap maxLvl fuel nw it b wnw (bnw ▸ hq), wsw, wse⟩
      | sw =>
        exact WF_branch_iff.mpr ⟨hw, hh, hobjs,
          bne, bnw, by rw [insert_bounds, bsw], bse,
          wne, wnw, insert_WF cap maxLvl fuel sw it b wsw (bsw ▸ hq), wse⟩
      | se =>
        exact WF_branch_iff.mpr ⟨hw, hh, hobjs,
          bne, bnw, bsw, by rw [insert_bounds, bse],
          wne, wnw, wsw, insert_WF cap maxLvl fuel se it b wse (bse ▸ hq)⟩

theorem foldl_insert_bounds (cap maxLvl fuel : ℕ) :
    ∀ (items : List (α × Rect)) (t0 : Quadtree α),
      (items.foldl (fun t p => insert cap maxLvl fuel t p.1 p.2) t0).bounds = t0.bounds
  | [], _ => rfl
  | p :: rest, t0 => by
    simp only [List.foldl_cons]
    rw [foldl_insert_bounds cap maxLvl fuel rest, insert_bounds]

theorem foldl_insert_WF (cap maxLvl fuel : ℕ) :
    ∀ (items : List (α × Rect)) (t0 : Quadtree α),
      WF t0 → (∀ p ∈ items, p.2.containedIn t0.bounds) →
      WF (items.foldl (fun t p => insert cap maxLvl fuel t p.1 p.2) t0)
  | [], _, hwf, _ => hwf
  | p :: rest, t0, hwf, hin => by
    simp only [List.foldl_cons]
    apply foldl_insert_WF cap maxLvl fuel rest
    · exact insert_WF cap maxLvl fuel t0 p.1 p.2 hwf (hin p (List.mem_cons_self p rest))
    · intro o ho
      rw [insert_bounds]
      exact hin o (List.mem_cons_of_mem p ho)

theorem foldl_insert_mem (cap maxLvl fuel : ℕ) :
    ∀ (items : List (α × Rect)) (t0 : Quadtree α) (x : α × Rect),
      (x ∈ t0.allObjects ∨ x ∈ items) →
      x ∈ (items.foldl (fun t p => insert cap maxLvl fuel t p.1 p.2) t0).allObjects
  | [], t0, x, hx => by simpa using hx
  | p :: rest, t0, x, hx => by
    simp only [List.foldl_cons]
    apply foldl_insert_mem cap maxLvl fuel rest
    rcases hx with hx | hx
    · exact Or.inl (mem_insert cap maxLvl fuel t0 p.1 p.2 x (Or.inr hx))
    · rcases List.mem_cons.mp hx with hx | hx
      · exact Or.inl (mem_insert cap maxLvl fuel t0 p.1 p.2 x (Or.inl (by simp [hx])))
      · exact Or.inr hx

end Quadtree

/-! ## List counting lemmas (shared by the quadtree and the stroke list) -/

theorem length_filter_eraseP_self {γ : Type} (p : γ → Bool) :
    ∀ l : List γ, (l.filter p).length ≤ 1 → ((l.eraseP p).filter p).length = 0
  | [], _ => by simp
  | a :: l, h => by
    cases hpa : p a
    · rw [List.eraseP_cons_of_neg (by simp [hpa])]
      rw [List.filter_cons_of_neg (by simp [hpa])] at h ⊢
      exact length_filter_eraseP_self p l h
    · rw [List.eraseP_cons_of_pos hpa]
      rw [List.filter_cons_of_pos hpa] at h
      simp only [List.length_cons] at h
      omega

theorem length_filter_eraseP_disjoint {γ : Type} (p q : γ → Bool)
    (hpq : ∀ a, p a = true → q a = false) :
    ∀ l : List γ, ((l.eraseP p).filter q).length = (l.filter q).length
  | [] => rfl
  | a :: l => by
    cases hpa : p a
    · rw [List.eraseP_cons_of_neg (by simp [hpa])]
      cases hqa : q a
      · rw [List.filter_cons_of_neg (by simp [hqa]),
          List.filter_cons_of_neg (by simp [hqa])]
        exact length_filter_eraseP_disjoint p q hpq l
      · rw [List.filter_cons_of_pos hqa, List.filter_cons_of_pos hqa]
        simp only [List.length_cons]
        rw [length_filter_eraseP_disjoint p q hpq l]
    · rw [List.eraseP_cons_of_pos hpa,
        List.filter_cons_of_neg (by simp [hpq a hpa])]

theorem one_le_length_filter_of_any {γ : Type} (p : γ → Bool) (l : List γ)
    (h : l.any p = true) : 1 ≤ (l.filter p).length := by
  obtain ⟨x, hx, hpx⟩ := List.any_eq_true.mp h
  have : x ∈ l.filter p := List.mem_filter.mpr ⟨hx, hpx⟩
  have := List.ne_nil_of_mem this
  cases hl : l.filter p with
  | nil => exact absurd hl this
  | cons b bl => simp

theorem length_filter_eq_zero_of_any_false {γ : Type} (p : γ → Bool) (l : List γ)
    (h : l.any p = false) : (l.filter p).length = 0 := by
  simp only [List.any_eq_false] at h
  simp only [List.length_eq_zero, List.filter_eq_nil_iff]
  intro a ha
  exact h a ha

namespace Quadtree

variable {α : Type}

theorem countKey_leaf (key : α → String) (bd : Rect) (lvl : ℕ)
    (objs : List (α × Rect)) (i : String) :
    countKey key (Quadtree.leaf bd lvl objs) i =
      (objs.filter (fun o => key o.1 = i)).length := rfl

theorem countKey_branch (key : α → String) (bd : Rect) (lvl : ℕ)
    (objs : List (α × Rect)) (ne nw sw se : Quadtree α) (i : String) :
    countKey key (Quadtree.branch bd lvl objs ne nw sw se) i =
      (objs.filter (fun o => key o.1 = i)).length +
      (countKey key ne i + (countKey key nw i + (countKey key sw i + countKey key se i))) := by
  simp [countKey, allObjects, List.filter_append]

/-- A failed `removeById` leaves the tree unchanged. -/
theorem removeById_eq_of_not_found (key : α → String) :
    ∀ (t : Quadtree α) (i : String),
      (t.removeById key i).2 = false → (t.removeById key i).1 = t
  | .leaf bd lvl objs, i, h => by
    simp only [removeById] at h ⊢
    by_cases hany : (objs.any fun o => decide (key o.1 = i)) = true
    · rw [if_pos hany] at h; simp at h
    · rw [if_neg hany]
  | .branch bd lvl objs ne nw sw se, i, h => by
    simp only [removeById] at h ⊢
    by_cases hany : (objs.any fun o => decide (key o.1 = i)) = true
    · rw [if_pos hany] at h; simp at h
    · rw [if_neg hany] at h ⊢
      by_cases h1 : (removeById key ne i).2 = true
      · rw [if_pos h1] at h; simp at h
      · rw [if_neg h1] at h ⊢
        by_cases h2 : (removeById key nw i).2 = true
        · rw [if_pos h2] at h; simp at h
        · rw [if_neg h2] at h ⊢
          by_cases h3 : (removeById key sw i).2 = true
          · rw [if_pos h3] at h; simp at h
          · rw [if_neg h3] at h ⊢
            simp only [] at h ⊢
            rw [removeById_eq_of_not_found key ne i (by simpa using h1),
              removeById_eq_of_not_found key nw i (by simpa using h2),
              removeById_eq_of_not_found key sw i (by simpa using h3),
              removeById_eq_of_not_found key se i h]

/-- A failed `removeById` means no stored object has the id. -/
theorem countKey_eq_zero_of_not_found (key : α → String) :
    ∀ (t : Quadtree α) (i : String),
      (t.removeById key i).2 = false → countKey key t i = 0
  | .leaf bd lvl objs, i, h => by
    simp only [removeById] at h
    by_cases hany : (objs.any fun o => decide (key o.1 = i)) = true
    · rw [if_pos hany] at h; simp at h
    · rw [countKey_leaf]
      exact length_filter_eq_zero_of_any_false _ objs (by simpa using hany)
  | .branch bd lvl objs ne nw sw se, i, h => by
    simp only [removeById] at h
    by_cases hany : (objs.any fun o => decide (key o.1 = i)) = true
    · rw [if_pos hany] at h; simp at h
    · rw [if_neg hany] at h
      by_cases h1 : (removeById key ne i).2 = true
      · rw [if_pos h1] at h; simp at h
      · rw [if_neg h1] at h
        by_cases h2 : (removeById key nw i).2 = true
        · rw [if_pos h2] at h; simp at h
        · rw [if_neg h2] at h
          by_cases h3 : (removeById key sw i).2 = true
          · rw [if_pos h3] at h; simp at h
          · rw [if_neg h3] at h
            simp only [] at h
            rw [countKey_branch,
              countKey_eq_zero_of_not_found key ne i (by simpa using h1),
              countKey_eq_zero_of_not_found key nw i (by simpa using h2),
              countKey_eq_zero_of_not_found key sw i (by simpa using h3),
              countKey_eq_zero_of_not_found key se i h,
              length_filter_eq_zero_of_any_false _ objs (by simpa using hany)]

/-- A successful `removeById` means at least one stored object had the id. -/
theorem one_le_countKey_of_found (key : α → String) :
    ∀ (t : Quadtree α) (i : String),
      (t.removeById key i).2 = true → 1 ≤ countKey key t i
  | .leaf bd lvl objs, i, h => by
    simp only [removeById] at h
    by_cases hany : (objs.any fun o => decide (key o.1 = i)) = true
    · rw [countKey_leaf]
      exact one_le_length_filter_of_any _ objs hany
    · rw [if_neg hany] at h; simp at h
  | .branch bd lvl objs ne nw sw se, i, h => by
    simp only [removeById] at h
    rw [countKey_branch]
    by_cases hany : (objs.any fun o => decide (key o.1 = i)) = true
    · have := one_le_length_filter_of_any _ objs hany
      omega
    · rw [if_neg hany] at h
      by_cases h1 : (removeById key ne i).2 = true
      · have := one_le_countKey_of_found key ne i h1
        omega
      · rw [if_neg h1] at h
        by_cases h2 : (removeById key nw i).2 = true
        · have := one_le_countKey_of_found key nw i h2
          omega
        · rw [if_neg h2] at h
          by_cases h3 : (removeById key sw i).2 = true
          · have := one_le_countKey_of_found key sw i h3
            omega
          · rw [if_neg h3] at h
            simp only [] at h
            have := one_le_countKey_of_found key se i h
            omega

/-- Removing an id from a tree that stores it at most once leaves no object
with that id. -/
theorem countKey_removeById_self (key : α → String) :
    ∀ (t : Quadtree α) (i : String),
      countKey key t i ≤ 1 → countKey key (t.removeById key i).1 i = 0
  | .leaf bd lvl objs, i, h => by
    rw [countKey_leaf] at h
    simp only [removeById]
    by_cases hany : (objs.any fun o => decide (key o.1 = i)) = true
    · rw [if_pos hany]
      rw [countKey_leaf]
      exact length_filter_eraseP_self _ objs h
    · rw [if_neg hany]
      rw [countKey_leaf]
      exact length_filter_eq_zero_of_any_false _ objs (by simpa using hany)
  | .branch bd lvl objs ne nw sw se, i, h => by
    rw [countKey_branch] at h
    simp only [removeById]
    by_cases hany : (objs.any fun o => decide (key o.1 = i)) = true
    · rw [if_pos hany]
      rw [countKey_branch]
      have hown := one_le_length_filter_of_any _ objs hany
      have hz := length_filter_eraseP_self (fun o => decide (key o.1 = i)) objs (by omega)
      omega
    · rw [if_neg hany]
      have hown := length_filter_eq_zero_of_any_false
        (fun o => decide (key o.1 = i)) objs (by simpa using hany)
      by_cases h1 : (removeById key ne i).2 = true
      · rw [if_pos h1]
        rw [countKey_branch]
        have hne1 := one_le_countKey_of_found key ne i h1
        have := countKey_removeById_self key ne i (by omega)
        omega
      · rw [if_neg h1]
        have hne0 := countKey_eq_zero_of_not_found key ne i (by simpa using h1)
        rw [removeById_eq_of_not_found key ne i (by simpa using h1)]
        by_cases h2 : (removeById key nw i).2 = true
        · rw [if_pos h2]
          rw [countKey_branch]
          have hnw1 := one_le_countKey_of_found key nw i h2
          have := countKey_removeById_self key nw i (by omega)
          omega
        · rw [if_neg h2]
          have hnw0 := countKey_eq_zero_of_not_found key nw i (by simpa using h2)
          rw [removeById_eq_of_not_found key nw i (by simpa using h2)]
          by_cases h3 : (removeById key sw i).2 = true
          · rw [if_pos h3]
            rw [countKey_branch]
            have hsw1 := one_le_countKey_of_found key sw i h3
            have := countKey_removeById_self key sw i (by omega)
            omega
          · rw [if_neg h3]
            have hsw0 := countKey_eq_zero_of_not_found key sw i (by simpa using h3)
            rw [removeById_eq_of_not_found key sw i (by simpa using h3)]
            simp only []
            rw [countKey_branch]
            have := countKey_removeById_self key se i (by omega)
            omega

/-- Removing one id never changes the stored count of a different id. -/
theorem countKey_removeById_ne (key : α → String) (i j : String) (hij : j ≠ i) :
    ∀ (t : Quadtree α), countKey key (t.removeById key j).1 i = countKey key t i
  | .leaf bd lvl objs => by
    simp only [removeById]
    by_cases hany : (objs.any fun o => decide (key o.1 = j)) = true
    · rw [if_pos hany]
      rw [countKey_leaf, countKey_leaf]
      exact length_filter_eraseP_disjoint _ _
        (fun a ha => by
          simp only [decide_eq_true_eq] at ha
          simp [ha, hij]) objs
    · rw [if_neg hany]
  | .branch bd lvl objs ne nw sw se => by
    simp only [removeById]
    by_cases hany : (objs.any fun o => decide (key o.1 = j)) = true
    · rw [if_pos hany]
      rw [countKey_branch, countKey_branch]
      rw [length_filter_eraseP_disjoint _ _
        (fun a ha => by
          simp only [decide_eq_true_eq] at ha
          simp [ha, hij]) objs]
    · rw [if_neg hany]
      by_cases h1 : (removeById key ne j).2 = true
      · rw [if_pos h1]
        rw [countKey_branch, countKey_branch, countKey_removeById_ne key i j hij ne]
      · rw [if_neg h1]
        rw [removeById_eq_of_not_found key ne j (by simpa using h1)]
        by_cases h2 : (removeById key nw j).2 = true
        · rw [if_pos h2]
          rw [countKey_branch, countKey_branch, countKey_removeById_ne key i j hij nw]
        · rw [if_neg h2]
          rw [removeById_eq_of_not_found key nw j (by simpa using h2)]
          by_cases h3 : (removeById key sw j).2 = true
          · rw [if_pos h3]
            rw [countKey_branch, countKey_branch, countKey_removeById_ne key i j hij sw]
          · rw [if_neg h3]
            rw [removeById_eq_of_not_found key sw j (by simpa using h3)]
            simp only []
            rw [countKey_branch, countKey_branch, countKey_removeById_ne key i j hij se]

/-- An id with no stored object stays absent through any sequence of
removals. -/
theorem countKey_foldl_removeById_zero (key : α → String) :
    ∀ (hits : List String) (t : Quadtree α) (i : String),
      countKey key t i = 0 →
      countKey key (hits.foldl (fun t j => (t.removeById key j).1) t) i = 0
  | [], _, _, h => h
  | j :: rest, t, i, h => by
    simp only [List.foldl_cons]
    apply countKey_foldl_removeById_zero key rest
    by_cases hij : j = i
    · subst hij
      exact countKey_removeById_self key t j (by omega)
    · rw [countKey_removeById_ne key i j hij]
      exact h

/-- Folding `removeById` over a list of hit ids, any id hit at most once in
the tree ends up completely absent. -/
theorem countKey_foldl_removeById (key : α → String) :
    ∀ (hits : List String) (t : Quadtree α) (i : String),
      i ∈ hits → countKey key t i ≤ 1 →
      countKey key (hits.foldl (fun t j => (t.removeById key j).1) t) i = 0
  | [], _, _, h, _ => absurd h (List.not_mem_nil _)
  | j :: rest, t, i, hmem, hle => by
    simp only [List.foldl_cons]
    by_cases hij : j = i
    · subst hij
      exact countKey_foldl_removeById_zero key rest _ j
        (countKey_removeById_self key t j hle)
    · rcases List.mem_cons.mp hmem with h | h
      · exact absurd h.symm hij
      · exact countKey_foldl_removeById key rest _ i h
          (by rw [countKey_removeById_ne key i j hij]; exact hle)

end Quadtree

/-! ## Further map-counting lemmas -/

theorem one_le_countKeyL_of_lookup_isSome {β : Type} (i : String) (v : β) :
    ∀ l : List (String × β), lookupKey i l = some v → 1 ≤ countKeyL i l
  | [], h => by simp [lookupKey] at h
  | (k, w) :: rest, h => by
    by_cases hk : k = i
    · simp [countKeyL, List.filter_cons, hk]
    · simp only [lookupKey, hk, if_false] at h
      have := one_le_countKeyL_of_lookup_isSome i v rest h
      simp only [countKeyL, List.filter_cons] at this ⊢
      by_cases hki : decide (k = i) = true
      · simp at hki; exact absurd hki hk
      · simp only [hki]
        exact this

theorem countKeyL_eq_zero_of_lookup_none {β : Type} (i : String) :
    ∀ l : List (String × β), lookupKey i l = none → countKeyL i l = 0
  | [], _ => rfl
  | (k, w) :: rest, h => by
    by_cases hk : k = i
    · simp [lookupKey, hk] at h
    · simp only [lookupKey, hk, if_false] at h
      simp only [countKeyL, List.filter_cons]
      have hki : decide (k = i) = false := by simp [hk]
      simp only [hki, Bool.false_eq_true, if_false]
      exact countKeyL_eq_zero_of_lookup_none i rest h

theorem countKeyL_setKey_self_of_lookup_none {β : Type} (i : String) (v : β) :
    ∀ l : List (String × β), lookupKey i l = none → countKeyL i (setKey i v l) = 1
  | [], _ => by simp [setKey, countKeyL]
  | (k, w) :: rest, h => by
    by_cases hk : k = i
    · simp [lookupKey, hk] at h
    · simp only [lookupKey, hk, if_false] at h
      simp only [setKey, hk, if_false]
      simp only [countKeyL, List.filter_cons]
      have hki : decide (k = i) = false := by simp [hk]
      simp only [hki, Bool.false_eq_true, if_false]
      exact countKeyL_setKey_self_of_lookup_none i v rest h

/-! ## Claims -/

/-- C1 (counterexample): as stated over arbitrary rectangles the superset
claim is false.  The engine quadtree classifies an item lying left of the
world bounds into the NW child (strict-fit tests have no lower-bound check),
after which a boundary-straddling query that intersects the item reaches no
child whose node bounds intersect it: `retrieve` misses the inserted item
`"bad"` even though its bounds intersect the query. -/
theorem quadtree_retrieve_superset_cex :
    ("bad", (⟨-60000, -10, 10, 5⟩ : Rect)) ∈ cexTree.allObjects ∧
    Rect.intersects ⟨-60000, -10, 10, 5⟩ cexQuery ∧
    ¬ "bad" ∈ cexTree.retrieve cexQuery := by decide

/-- C1 (amended): for every insertion sequence of items whose bounds lie
inside the tree's (nonnegative-size) world bounds and every query rectangle,
`retrieve` returns a superset of the items whose bounds intersect the query:
no in-world item intersecting the query is omitted. -/
theorem quadtree_retrieve_superset (bd : Rect) (cap maxLvl fuel : ℕ)
    (items : List (String × Rect)) (q : Rect) (x : String × Rect)
    (hw : 0 ≤ bd.width) (hh : 0 ≤ bd.height)
    (hin : ∀ p ∈ items, p.2.containedIn bd)
    (hx : x ∈ items) (hint : x.2.intersects q) :
    x.1 ∈ (items.foldl (fun t p => t.insert cap maxLvl fuel p.1 p.2)
      (Quadtree.leaf bd 0 [])).retrieve q := by
  have hwf0 : Quadtree.WF (Quadtree.leaf bd 0 ([] : List (String × Rect))) :=
    Quadtree.WF_leaf_iff.mpr ⟨hw, hh, by simp⟩
  apply Quadtree.mem_retrieve_of_intersects _ q x _ _ hint
  · exact Quadtree.foldl_insert_WF cap maxLvl fuel items _ hwf0 hin
  · exact Quadtree.foldl_insert_mem cap maxLvl fuel items _ x (Or.inr hx)

theorem quadtree_retrieve_superset_witness :
    "a" ∈ (([("a", (⟨0, 0, 10, 10⟩ : Rect))]).foldl
      (fun t p => t.insert qtCapacity qtMaxLevel qtFuel p.1 p.2)
      (Quadtree.leaf engineWorldBounds 0 [])).retrieve ⟨5, 5, 10, 10⟩ :=
  quadtree_retrieve_superset engineWorldBounds qtCapacity qtMaxLevel qtFuel
    [("a", ⟨0, 0, 10, 10⟩)] ⟨5, 5, 10, 10⟩ ("a", ⟨0, 0, 10, 10⟩)
    (by decide) (by decide) (by decide) (by decide) (by decide)

/-- C3: `createConnection` is idempotent per ordered pair: under the map
invariant (at most one entry per id), after `createConnection(a,b)` exactly
one connection with the id derived from the ordered pair exists, and a second
call changes nothing at all (neither the engine map nor the store). -/
theorem createConnection_idempotent (sys : System) (a b : String)
    (h : countKeyL (connId a b) sys.engine.connections ≤ 1) :
    System.createConnection (System.createConnection sys a b) a b =
      System.createConnection sys a b ∧
    countKeyL (connId a b) (System.createConnection sys a b).engine.connections = 1 := by
  cases hl : lookupKey (connId a b) sys.engine.connections with
  | some v =>
    have h1 : 1 ≤ countKeyL (connId a b) sys.engine.connections :=
      one_le_countKeyL_of_lookup_isSome _ v _ hl
    constructor
    · simp [System.createConnection, hl]
    · simp only [System.createConnection, hl, Option.isSome_some, if_pos]
      omega
  | none =>
    constructor
    · simp [System.createConnection, hl, lookupKey_setKey_self]
    · simp only [System.createConnection, hl, Option.isSome_none, Bool.false_eq_true,
        if_false]
      exact countKeyL_setKey_self_of_lookup_none _ _ _ hl

theorem createConnection_idempotent_witness :
    System.createConnection
        (System.createConnection { engine := emptyCanvas, store := emptyStore } "a" "b")
        "a" "b" =
      System.createConnection { engine := emptyCanvas, store := emptyStore } "a" "b" ∧
    countKeyL (connId "a" "b")
      (System.createConnection { engine := emptyCanvas, store := emptyStore }
        "a" "b").engine.connections = 1 :=
  createConnection_idempotent { engine := emptyCanvas, store := emptyStore } "a" "b"
    (by decide)

/-- C4: on an id absent from the store, `updateCard`, `updateCardPosition`
and `deleteCard` are silent no-ops: the whole store state (all three record
maps) is unchanged and no error is raised (the operations are total). -/
theorem store_missing_id_noops (s : StoreState) (now : ℤ) (i : String)
    (p : CardPatch) (x y : ℚ) (h : lookupKey i s.cards = none) :
    s.updateCard now i p = s ∧ s.updateCardPosition now i x y = s ∧
    s.deleteCard i = s := by
  refine ⟨?_, ?_, ?_⟩
  · simp [StoreState.updateCard, h]
  · simp [StoreState.updateCardPosition, h]
  · simp [StoreState.deleteCard, delKey_of_lookupKey_none i s.cards h]

theorem store_missing_id_noops_witness :
    emptyStore.updateCard 0 "ghost"
        { x := some 1, y := none, width := none, height := none,
          color := none, text := none, imageUrl := none } = emptyStore ∧
    emptyStore.updateCardPosition 0 "ghost" 3 4 = emptyStore ∧
    emptyStore.deleteCard "ghost" = emptyStore :=
  store_missing_id_noops emptyStore 0 "ghost"
    { x := some 1, y := none, width := none, height := none,
      color := none, text := none, imageUrl := none } 3 4 (by decide)

/-- C5 (code bug): `removeCard` deletes the runtime entry but never removes
the card from `cardQuadtree`; after creating and deleting card `"c1"` the
runtime map no longer contains it, yet a spatial-index query over its old
bounds still returns `"c1"`.  The spec requires deletions to remove the
derived spatial-index entry. -/
theorem removeCard_leaves_spatial_index :
    lookupKey "c1" (((emptyCanvas.createCard "c1" 0 0).removeCard "c1").cards) = none ∧
    "c1" ∈ ((emptyCanvas.createCard "c1" 0 0).removeCard "c1").cardQuadtree.retrieve
      ⟨0, 0, 200, 150⟩ := by decide

/-! ## Physics-settling lemmas (C6) -/

theorem settleState_isDragging (n : ℕ) : (settleState n).isDragging = false := by
  induction n with
  | zero => rfl
  | succ n ih =>
    simp only [settleState, physicsTickCard, ih, Bool.false_eq_true, if_false]

theorem settleState_targetX (n : ℕ) : (settleState n).targetX = 100 := by
  induction n with
  | zero => rfl
  | succ n ih =>
    simp only [settleState, physicsTickCard, settleState_isDragging n,
      Bool.false_eq_true, if_false]
    exact ih

/-- One tick of the settling scenario, in closed form for the x component. -/
theorem settleState_step (n : ℕ) :
    (settleState (n + 1)).vx =
      ((settleState n).vx + (100 - (settleState n).x) * (1/10) / (3/2)) * (23/25) ∧
    (settleState (n + 1)).x =
      (settleState n).x +
        ((settleState n).vx + (100 - (settleState n).x) * (1/10) / (3/2)) * (23/25) := by
  constructor <;>
  · simp only [settleState, physicsTickCard, settleState_isDragging n,
      Bool.false_eq_true, if_false, PHYSICS_CONFIG]
    rw [settleState_targetX n]

/-- The settling card is never exactly at rest: the tick map is injective and
`(x, vx) = (100, 0)` is its unique fixed point, unreached from `(0, 0)`. -/
theorem settleState_not_at_rest (n : ℕ) :
    ¬ ((settleState n).x = 100 ∧ (settleState n).vx = 0) := by
  induction n with
  | zero =>
    intro hr
    have hx := hr.1
    norm_num [settleState, settleStart] at hx
  | succ n ih =>
    intro hr
    obtain ⟨hvs, hxs⟩ := settleState_step n
    apply ih
    have hxn : (settleState n).x = 100 := by
      have h1 := hr.1
      rw [hxs] at h1
      have h2 := hr.2
      rw [hvs] at h2
      linarith
    constructor
    · exact hxn
    · have h2 := hr.2
      rw [hvs, hxn] at h2
      norm_num at h2
      exact h2

/-- C6 (counterexample): the settling claim as stated is false — there is no
tick after which the velocity is exactly zero forever, because the card-spring
integrator has no velocity snap-to-zero (only the viewport integrator has
one): a state with zero velocity at two consecutive ticks would have to sit
exactly at the target, which is never reached exactly. -/
theorem physics_settling_claim_false : ¬ settleClaim := by
  intro hcl
  obtain ⟨N, _, hvel⟩ := hcl
  have h1 := (hvel N (le_refl N)).1
  have h2 := (hvel (N + 1) (Nat.le_succ N)).1
  obtain ⟨hvs, _⟩ := settleState_step N
  rw [h2, h1] at hvs
  have hx : (settleState N).x = 100 := by
    ring_nf at hvs
    linarith
  exact settleState_not_at_rest N ⟨hx, h1⟩

set_option maxRecDepth 400000 in
/-- C6 (amended): the settling card reaches within 0.5 units of the target
within a bounded number of ticks (200 suffice), and while the velocity decays
it never becomes exactly zero permanently: after any tick there is a later
tick with nonzero velocity. -/
theorem physics_settling_amended :
    settleDistSq 200 < 1/4 ∧
    ∀ N : ℕ, ∃ n : ℕ, N ≤ n ∧ (settleState n).vx ≠ 0 := by
  constructor
  · decide
  · intro N
    by_cases h : (settleState (N + 1)).vx = 0
    · refine ⟨N + 2, by omega, ?_⟩
      intro h2
      obtain ⟨hvs, _⟩ := settleState_step (N + 1)
      rw [h2, h] at hvs
      have hx : (settleState (N + 1)).x = 100 := by
        set xv := (settleState (N + 1)).x with hxv
        ring_nf at hvs
        linarith
      exact settleState_not_at_rest (N + 1) ⟨hx, h⟩
    · exact ⟨N + 1, by omega, h⟩

/-- The algebraic core of pointer-anchored zooming, for any new scale. -/
theorem zoom_anchor_key (vx os mx ns : ℚ) (h : os ≠ 0) :
    (mx - vx) / os * ns + (mx - (mx - vx) * (ns / os)) = mx := by
  field_simp

/-- C7: wheel zoom is anchored at the pointer: the world point whose screen
projection was at the pointer position projects to exactly the same screen
position after the zoom step, and the new scale always lies in the clamp
range `[0.1, 5]`. -/
theorem zoom_anchoring (vp : ViewportState) (deltaY mouseX mouseY : ℚ)
    (h : vp.scale ≠ 0) :
    worldToScreen (vp.wheelZoom deltaY mouseX mouseY)
        (screenToWorld vp (mouseX, mouseY)) = (mouseX, mouseY) ∧
    1/10 ≤ (vp.wheelZoom deltaY mouseX mouseY).scale ∧
    (vp.wheelZoom deltaY mouseX mouseY).scale ≤ 5 := by
  refine ⟨?_, ?_, ?_⟩
  · simp only [worldToScreen, screenToWorld, ViewportState.wheelZoom, Prod.mk.injEq]
    exact ⟨zoom_anchor_key vp.x vp.scale mouseX _ h,
           zoom_anchor_key vp.y vp.scale mouseY _ h⟩
  · simp only [ViewportState.wheelZoom]
    exact le_max_left _ _
  · simp only [ViewportState.wheelZoom]
    exact max_le (by norm_num) (min_le_left _ _)

theorem zoom_anchoring_witness :
    worldToScreen (emptyViewport.wheelZoom 1 3 4)
        (screenToWorld emptyViewport (3, 4)) = (3, 4) ∧
    1/10 ≤ (emptyViewport.wheelZoom 1 3 4).scale ∧
    (emptyViewport.wheelZoom 1 3 4).scale ≤ 5 :=
  zoom_anchoring emptyViewport 1 3 4 (by decide)

/-- C9 (counterexample): while Connecting, pointer-down on card `"A"` records
it as the pending source, but a subsequent pointer-up on empty space
(`handleGlobalUp`) does **not** clear the pending source as the claim states:
it stays `"A"`. -/
theorem connecting_globalUp_cex :
    (c9Start.handleCardDown 1000 false "A").1.connectionStartId = some "A" ∧
    ((c9Start.handleCardDown 1000 false "A").1.handleGlobalUp).1.connectionStartId
      = some "A" := by decide

/-- C9 (amended): while Connecting (and not panning or double-clicking),
pointer-down on a card records it as the pending source and emits nothing;
pointer-up on a different card emits exactly one `createConnection` for the
ordered pair and clears the pending source; pointer-up on the same card
clears the pending source silently; pointer-up on empty space emits nothing
but leaves the pending source (and all interaction state) unchanged. -/
theorem connecting_fsm (st : IMState) (now : ℤ) (shiftKey : Bool) (c src : String) :
    (st.mode = .connecting → st.isSpacePressed = false →
      ¬(st.lastClickedCardId = some c ∧ now - st.lastClickTime < 500) →
      (st.handleCardDown now shiftKey c).1.connectionStartId = some c ∧
      (st.handleCardDown now shiftKey c).2 = []) ∧
    (st.mode = .connecting → st.connectionStartId = some src → src ≠ c →
      (st.handleCardUp c).1.connectionStartId = none ∧
      (st.handleCardUp c).2 = [.createConn src c]) ∧
    (st.mode = .connecting → st.connectionStartId = some src → src = c →
      (st.handleCardUp c).1.connectionStartId = none ∧ (st.handleCardUp c).2 = []) ∧
    (st.mode = .connecting → st.handleGlobalUp = (st, [])) := by
  refine ⟨?_, ?_, ?_, ?_⟩
  · intro hmode hsp hdc
    simp only [IMState.handleCardDown, hsp, Bool.false_eq_true, if_false]
    rw [if_neg hdc]
    split <;> simp [hmode]
  · intro hmode hpend hne
    simp [IMState.handleCardUp, hpend, hmode, hne]
  · intro hmode hpend heq
    subst heq
    simp [IMState.handleCardUp, hpend, hmode]
  · intro hmode
    simp [IMState.handleGlobalUp, hmode]

theorem connecting_fsm_witness :
    ((c9Pending.handleCardDown 1000 false "B").1.connectionStartId = some "B" ∧
     (c9Pending.handleCardDown 1000 false "B").2 = []) ∧
    ((c9Pending.handleCardUp "B").1.connectionStartId = none ∧
     (c9Pending.handleCardUp "B").2 = [.createConn "A" "B"]) ∧
    ((c9Pending.handleCardUp "A").1.connectionStartId = none ∧
     (c9Pending.handleCardUp "A").2 = []) ∧
    c9Pending.handleGlobalUp = (c9Pending, []) := by
  refine ⟨?_, ?_, ?_, ?_⟩
  · exact (connecting_fsm c9Pending 1000 false "B" "A").1 rfl rfl (by decide)
  · exact (connecting_fsm c9Pending 1000 false "B" "A").2.1 rfl rfl (by decide)
  · exact (connecting_fsm c9Pending 1000 false "A" "A").2.2.1 rfl rfl rfl
  · exact (connecting_fsm c9Pending 1000 false "B" "A").2.2.2 rfl

/-- C10: every stroke reported to the persistence collaborator by `endStroke`
has at least two points: with at least one sample current, the reported and
spatially indexed point list is the original one when it already has two or
more samples, and otherwise gains exactly the synthetic sample offset by
`(0.1, 0.1)`; the runtime stroke entry holds the same list. -/
theorem endStroke_reports_two_points (s : CanvasState) (sid : String) (cpts : List P3)
    (hcur : s.currentStroke = some (sid, cpts)) (hne : cpts ≠ []) :
    ∃ pts : List P3,
      s.endStroke.2 = some (sid, pts) ∧ 2 ≤ pts.length ∧
      (2 ≤ cpts.length → pts = cpts) ∧
      (∀ p : P3, cpts = [p] → pts = [p, nudge p]) ∧
      lookupKey sid s.endStroke.1.strokes = some pts ∧
      ((sid, pts), getStrokeBounds pts) ∈ s.endStroke.1.strokeQuadtree.allObjects := by
  cases cpts with
  | nil => exact absurd rfl hne
  | cons p rest =>
    cases rest with
    | nil =>
      refine ⟨[p, nudge p], ?_, ?_, ?_, ?_, ?_, ?_⟩
      · simp [CanvasState.endStroke, hcur]
      · simp
      · intro hlen; simp at hlen
      · intro q hq
        simp only [List.cons.injEq, and_true] at hq
        subst hq
        rfl
      · simp only [CanvasState.endStroke, hcur]
        exact lookupKey_setKey_self sid _ s.strokes
      · simp only [CanvasState.endStroke, hcur]
        exact Quadtree.mem_insert qtCapacity qtMaxLevel qtFuel s.strokeQuadtree
          (sid, [p, nudge p]) (getStrokeBounds [p, nudge p]) _ (Or.inl rfl)
    | cons q more =>
      refine ⟨p :: q :: more, ?_, ?_, ?_, ?_, ?_, ?_⟩
      · simp [CanvasState.endStroke, hcur]
      · simp
      · intro _; rfl
      · intro r hr; simp at hr
      · simp only [CanvasState.endStroke, hcur]
        simp only [List.length_cons, show ¬(more.length + 1 + 1 < 2) by omega, if_false]
        exact lookupKey_setKey_self sid _ s.strokes
      · simp only [CanvasState.endStroke, hcur]
        simp only [List.length_cons, show ¬(more.length + 1 + 1 < 2) by omega, if_false]
        exact Quadtree.mem_insert qtCapacity qtMaxLevel qtFuel s.strokeQuadtree
          (sid, p :: q :: more) (getStrokeBounds (p :: q :: more)) _ (Or.inl rfl)

theorem endStroke_reports_two_points_witness :
    ∃ pts : List P3,
      ({ emptyCanvas with
          currentStroke := some ("s2", [((1 : ℚ), (2 : ℚ), (1/2 : ℚ))]),
          strokes := [("s2", [((1 : ℚ), (2 : ℚ), (1/2 : ℚ))])] } :
        CanvasState).endStroke.2 = some ("s2", pts) ∧ 2 ≤ pts.length ∧
      (2 ≤ ([((1 : ℚ), (2 : ℚ), (1/2 : ℚ))] : List P3).length → pts = [(1, 2, 1/2)]) ∧
      (∀ p : P3, ([((1 : ℚ), (2 : ℚ), (1/2 : ℚ))] : List P3) = [p] → pts = [p, nudge p]) ∧
      lookupKey "s2"
        ({ emptyCanvas with
            currentStroke := some ("s2", [((1 : ℚ), (2 : ℚ), (1/2 : ℚ))]),
            strokes := [("s2", [((1 : ℚ), (2 : ℚ), (1/2 : ℚ))])] } :
          CanvasState).endStroke.1.strokes = some pts ∧
      (("s2", pts), getStrokeBounds pts) ∈
        ({ emptyCanvas with
            currentStroke := some ("s2", [((1 : ℚ), (2 : ℚ), (1/2 : ℚ))]),
            strokes := [("s2", [((1 : ℚ), (2 : ℚ), (1/2 : ℚ))])] } :
          CanvasState).endStroke.1.strokeQuadtree.allObjects :=
  endStroke_reports_two_points _ "s2" [(1, 2, 1/2)] rfl (by decide)

/-! ## Hydrate lemmas (C2) -/

theorem cards_hydrateConnStep (acc : CanvasState) (c : ConnSnapshot) :
    (hydrateConnStep acc c).cards = acc.cards := by
  simp only [hydrateConnStep]
  split <;> rfl

theorem cards_foldl_hydrateConnStep :
    ∀ (cs : List ConnSnapshot) (acc : CanvasState),
      (cs.foldl hydrateConnStep acc).cards = acc.cards
  | [], _ => rfl
  | c :: rest, acc => by
    simp only [List.foldl_cons]
    rw [cards_foldl_hydrateConnStep rest, cards_hydrateConnStep]

theorem cards_hydrateStrokeStep (ids : List String) (acc : CanvasState)
    (st : StrokeSnapshot) : (hydrateStrokeStep ids acc st).cards = acc.cards := by
  simp only [hydrateStrokeStep]
  split <;> rfl

theorem cards_foldl_hydrateStrokeStep (ids : List String) :
    ∀ (sts : List StrokeSnapshot) (acc : CanvasState),
      (sts.foldl (hydrateStrokeStep ids) acc).cards = acc.cards
  | [], _ => rfl
  | st :: rest, acc => by
    simp only [List.foldl_cons]
    rw [cards_foldl_hydrateStrokeStep ids rest, cards_hydrateStrokeStep]

/-- The removal phase leaves every incoming card's runtime entry alone. -/
theorem lookupKey_foldl_hydrateRemoveStep (incomingIds : List String) :
    ∀ (ks : List String) (s : CanvasState) (i : String),
      incomingIds.contains i = true →
      lookupKey i ((ks.foldl (hydrateRemoveStep incomingIds) s).cards) =
        lookupKey i s.cards
  | [], _, _, _ => rfl
  | k :: ks, s, i, hin => by
    simp only [List.foldl_cons]
    rw [lookupKey_foldl_hydrateRemoveStep incomingIds ks _ i hin]
    simp only [hydrateRemoveStep]
    by_cases hk : incomingIds.contains k = true
    · rw [if_pos hk]
    · rw [if_neg hk]
      have hki : k ≠ i := fun he => hk (he ▸ hin)
      simp only [CanvasState.removeCard]
      split
      · exact lookupKey_delKey_ne i k s.cards hki
      · rfl

/-- A hydrate card step for a different id does not touch this id's entry. -/
theorem lookupKey_hydrateCardStep_ne (acc : CanvasState) (c : CardSnapshot)
    (i : String) (hne : c.id ≠ i) :
    lookupKey i (hydrateCardStep acc c).cards = lookupKey i acc.cards := by
  simp only [hydrateCardStep]
  cases hl : lookupKey c.id acc.cards with
  | none =>
    simp only [CanvasState.createCard, hl, Option.isSome_none, Bool.false_eq_true,
      if_false]
    exact lookupKey_setKey_ne i c.id _ acc.cards hne
  | some st =>
    simp only []
    by_cases hd : st.isDragging
    · rw [if_pos hd]
    · rw [if_neg hd]
      simp only [CanvasState.updateCardPosition, hl]
      rw [if_neg hd]
      exact lookupKey_setKey_ne i c.id _ acc.cards hne

theorem lookupKey_foldl_hydrateCardStep_ne :
    ∀ (cs : List CardSnapshot) (acc : CanvasState) (i : String),
      (∀ c ∈ cs, c.id ≠ i) →
      lookupKey i ((cs.foldl hydrateCardStep acc).cards) = lookupKey i acc.cards
  | [], _, _, _ => rfl
  | c :: rest, acc, i, h => by
    simp only [List.foldl_cons]
    rw [lookupKey_foldl_hydrateCardStep_ne rest _ i
        (fun d hd => h d (List.mem_cons_of_mem c hd)),
      lookupKey_hydrateCardStep_ne acc c i (h c (List.mem_cons_self c rest))]

/-- Through hydrate's card loop, an existing entry keeps its runtime physics
state except that (only when not dragging) the target is set to the snapshot
position. -/
theorem lookupKey_foldl_hydrateCardStep (i : String) (st : PhysicsState)
    (c : CardSnapshot) :
    ∀ (cs : List CardSnapshot) (acc : CanvasState),
      lookupKey i acc.cards = some st → c ∈ cs → c.id = i →
      (cs.map (fun x => x.id)).Nodup →
      lookupKey i ((cs.foldl hydrateCardStep acc).cards) =
        some (if st.isDragging then st
              else { st with targetX := c.x, targetY := c.y })
  | [], _, _, hc, _, _ => absurd hc (List.not_mem_nil c)
  | c0 :: rest, acc, hl, hc, hcid, hnodup => by
    rw [List.map_cons] at hnodup
    have hnodup1 := List.nodup_cons.mp hnodup
    simp only [List.foldl_cons]
    by_cases hc0 : c0.id = i
    · have hcc0 : c = c0 := by
        rcases List.mem_cons.mp hc with h | h
        · exact h
        · exfalso
          apply hnodup1.1
          have : c.id ∈ rest.map (fun x => x.id) := List.mem_map_of_mem _ h
          rw [hcid, ← hc0] at this
          exact this
      subst hcc0
      have hrest : ∀ d ∈ rest, d.id ≠ i := by
        intro d hd he
        apply hnodup1.1
        have : d.id ∈ rest.map (fun x => x.id) := List.mem_map_of_mem _ hd
        rw [he, ← hc0] at this
        exact this
      rw [lookupKey_foldl_hydrateCardStep_ne rest _ i hrest]
      simp only [hydrateCardStep, hcid, hl]
      by_cases hd : st.isDragging
      · rw [if_pos hd, if_pos hd]
        exact hl
      · rw [if_neg hd, if_neg hd]
        simp only [CanvasState.updateCardPosition, hl]
        rw [if_neg hd]
        exact lookupKey_setKey_self i _ acc.cards
    · have hcrest : c ∈ rest := by
        rcases List.mem_cons.mp hc with h | h
        · exact absurd (h ▸ hcid) hc0
        · exact h
      exact lookupKey_foldl_hydrateCardStep i st c rest _
        (by rw [lookupKey_hydrateCardStep_ne acc c0 i hc0]; exact hl)
        hcrest hcid hnodup1.2

/-- C2: for an existing card present in the incoming snapshot (snapshot ids
unique), hydrate never touches the runtime position or velocity: if the card
is being dragged locally the incoming record is ignored entirely and the
physics state is unchanged; otherwise exactly the target position is set to
the snapshot position. -/
theorem hydrate_updates_only_target (s : CanvasState) (cards : List CardSnapshot)
    (conns : List ConnSnapshot) (strokes : List StrokeSnapshot)
    (i : String) (st : PhysicsState) (c : CardSnapshot)
    (hl : lookupKey i s.cards = some st) (hc : c ∈ cards) (hcid : c.id = i)
    (hnodup : (cards.map (fun x => x.id)).Nodup) :
    lookupKey i ((s.hydrate cards conns strokes).cards) =
      some (if st.isDragging then st
            else { st with targetX := c.x, targetY := c.y }) := by
  simp only [CanvasState.hydrate]
  rw [cards_foldl_hydrateStrokeStep, cards_foldl_hydrateConnStep]
  have hin : (cards.map (fun c => c.id)).contains i = true := by
    have : i ∈ cards.map (fun c => c.id) := by
      rw [← hcid]
      exact List.mem_map_of_mem _ hc
    exact List.elem_eq_true_of_mem this
  exact lookupKey_foldl_hydrateCardStep i st c cards _
    (by rw [lookupKey_foldl_hydrateRemoveStep _ _ _ i hin]; exact hl)
    hc hcid hnodup

theorem hydrate_updates_only_target_witness :
    lookupKey "c1" (((emptyCanvas.createCard "c1" 5 5).hydrate
        [{ id := "c1", x := 50, y := 60 }] [] []).cards) =
      some (if ({ x := 5, y := 5, vx := 0, vy := 0, targetX := 5, targetY := 5,
                  isDragging := false, dragOffsetX := 0, dragOffsetY := 0,
                  cardId := "c1" } : PhysicsState).isDragging
        then { x := 5, y := 5, vx := 0, vy := 0, targetX := 5, targetY := 5,
               isDragging := false, dragOffsetX := 0, dragOffsetY := 0,
               cardId := "c1" }
        else { x := 5, y := 5, vx := 0, vy := 0, targetX := 50, targetY := 60,
               isDragging := false, dragOffsetX := 0, dragOffsetY := 0,
               cardId := "c1" }) := by
  have h := hydrate_updates_only_target (emptyCanvas.createCard "c1" 5 5)
    [{ id := "c1", x := 50, y := 60 }] [] [] "c1"
    { x := 5, y := 5, vx := 0, vy := 0, targetX := 5, targetY := 5,
      isDragging := false, dragOffsetX := 0, dragOffsetY := 0, cardId := "c1" }
    { id := "c1", x := 50, y := 60 }
    (by decide) (by decide) rfl (by decide)
  simpa using h

/-! ## Erase-at geometry (C8) -/

theorem foldl_minX_le_init (l : List P3) (a : ℚ) :
    l.foldl (fun m q => min m q.1) a ≤ a := by
  induction l generalizing a with
  | nil => exact le_refl a
  | cons b l ih => exact le_trans (ih (min a b.1)) (min_le_left _ _)

theorem foldl_minX_le_mem (l : List P3) (x : P3) :
    x ∈ l → ∀ a : ℚ, l.foldl (fun m q => min m q.1) a ≤ x.1 := by
  induction l with
  | nil => intro hx; cases hx
  | cons b l ih =>
    intro hx a
    rcases List.mem_cons.mp hx with h | h
    · subst h
      exact le_trans (foldl_minX_le_init l (min a x.1)) (min_le_right _ _)
    · exact ih h (min a b.1)

theorem le_foldl_maxX_init (l : List P3) (a : ℚ) :
    a ≤ l.foldl (fun m q => max m q.1) a := by
  induction l generalizing a with
  | nil => exact le_refl a
  | cons b l ih => exact le_trans (le_max_left _ _) (ih (max a b.1))

theorem le_foldl_maxX_mem (l : List P3) (x : P3) :
    x ∈ l → ∀ a : ℚ, x.1 ≤ l.foldl (fun m q => max m q.1) a := by
  induction l with
  | nil => intro hx; cases hx
  | cons b l ih =>
    intro hx a
    rcases List.mem_cons.mp hx with h | h
    · subst h
      exact le_trans (le_max_right _ _) (le_foldl_maxX_init l (max a x.1))
    · exact ih h (max a b.1)

theorem foldl_minY_le_init (l : List P3) (a : ℚ) :
    l.foldl (fun m q => min m q.2.1) a ≤ a := by
  induction l generalizing a with
  | nil => exact le_refl a
  | cons b l ih => exact le_trans (ih (min a b.2.1)) (min_le_left _ _)

theorem foldl_minY_le_mem (l : List P3) (x : P3) :
    x ∈ l → ∀ a : ℚ, l.foldl (fun m q => min m q.2.1) a ≤ x.2.1 := by
  induction l with
  | nil => intro hx; cases hx
  | cons b l ih =>
    intro hx a
    rcases List.mem_cons.mp hx with h | h
    · subst h
      exact le_trans (foldl_minY_le_init l (min a x.2.1)) (min_le_right _ _)
    · exact ih h (min a b.2.1)

theorem le_foldl_maxY_init (l : List P3) (a : ℚ) :
    a ≤ l.foldl (fun m q => max m q.2.1) a := by
  induction l generalizing a with
  | nil => exact le_refl a
  | cons b l ih => exact le_trans (le_max_left _ _) (ih (max a b.2.1))

theorem le_foldl_maxY_mem (l : List P3) (x : P3) :
    x ∈ l → ∀ a : ℚ, x.2.1 ≤ l.foldl (fun m q => max m q.2.1) a := by
  induction l with
  | nil => intro hx; cases hx
  | cons b l ih =>
    intro hx a
    rcases List.mem_cons.mp hx with h | h
    · subst h
      exact le_trans (le_max_right _ _) (le_foldl_maxY_init l (max a x.2.1))
    · exact ih h (max a b.2.1)

/-- The squared point-to-segment distance is attained at a convex combination
of the segment endpoints. -/
theorem distSqToSegment_closest (px py x1 y1 x2 y2 : ℚ) :
    ∃ t1 : ℚ, 0 ≤ t1 ∧ t1 ≤ 1 ∧
      distSqToSegment px py x1 y1 x2 y2 =
        (px - (x1 + t1 * (x2 - x1))) ^ 2 + (py - (y1 + t1 * (y2 - y1))) ^ 2 := by
  unfold distSqToSegment
  by_cases hl : (x1 - x2) ^ 2 + (y1 - y2) ^ 2 = 0
  · refine ⟨0, le_refl 0, by norm_num, ?_⟩
    rw [if_pos hl]
    ring
  · refine ⟨max 0 (min 1 (((px - x1) * (x2 - x1) + (py - y1) * (y2 - y1)) /
      ((x1 - x2) ^ 2 + (y1 - y2) ^ 2))), le_max_left _ _,
      max_le (by norm_num) (min_le_left _ _), ?_⟩
    rw [if_neg hl]

theorem abs_lt_twenty_of_sq_lt (d : ℚ) (h : d ^ 2 < 400) : d < 20 ∧ -d < 20 := by
  constructor
  · nlinarith [sq_nonneg (d - 20)]
  · nlinarith [sq_nonneg (d + 20)]

/-- A stroke with a segment strictly within radius 20 of the probe point has
padded bounds intersecting the radius-20 search box around the point. -/
theorem intersects_searchBounds_of_strokeHit (lp : ℚ × ℚ) (ps : List P3)
    (h : strokeHit lp 20 ps = true) :
    (getStrokeBounds ps).intersects ⟨lp.1 - 20, lp.2 - 20, 20 * 2, 20 * 2⟩ := by
  simp only [strokeHit, segPairs, List.any_eq_true] at h
  obtain ⟨pq, hpq, hd⟩ := h
  obtain ⟨a, b⟩ := pq
  simp only [decide_eq_true_eq] at hd
  have hab := List.of_mem_zip hpq
  have ha : a ∈ ps := hab.1
  have hb : b ∈ ps := List.mem_of_mem_tail hab.2
  obtain ⟨t1, ht0, ht1, heq⟩ := distSqToSegment_closest lp.1 lp.2 a.1 a.2.1 b.1 b.2.1
  rw [heq, show ((20 : ℚ) ^ 2 = 400) from by norm_num] at hd
  cases ps with
  | nil => exact absurd ha (List.not_mem_nil a)
  | cons p rest =>
    have hamnx : rest.foldl (fun m q => min m q.1) p.1 ≤ a.1 := by
      rcases List.mem_cons.mp ha with h1 | h1
      · rw [h1]; exact foldl_minX_le_init rest p.1
      · exact foldl_minX_le_mem rest a h1 p.1
    have hbmnx : rest.foldl (fun m q => min m q.1) p.1 ≤ b.1 := by
      rcases List.mem_cons.mp hb with h1 | h1
      · rw [h1]; exact foldl_minX_le_init rest p.1
      · exact foldl_minX_le_mem rest b h1 p.1
    have hamxx : a.1 ≤ rest.foldl (fun m q => max m q.1) p.1 := by
      rcases List.mem_cons.mp ha with h1 | h1
      · rw [h1]; exact le_foldl_maxX_init rest p.1
      · exact le_foldl_maxX_mem rest a h1 p.1
    have hbmxx : b.1 ≤ rest.foldl (fun m q => max m q.1) p.1 := by
      rcases List.mem_cons.mp hb with h1 | h1
      · rw [h1]; exact le_foldl_maxX_init rest p.1
      · exact le_foldl_maxX_mem rest b h1 p.1
    have hamny : rest.foldl (fun m q => min m q.2.1) p.2.1 ≤ a.2.1 := by
      rcases List.mem_cons.mp ha with h1 | h1
      · rw [h1]; exact foldl_minY_le_init rest p.2.1
      · exact foldl_minY_le_mem rest a h1 p.2.1
    have hbmny : rest.foldl (fun m q => min m q.2.1) p.2.1 ≤ b.2.1 := by
      rcases List.mem_cons.mp hb with h1 | h1
      · rw [h1]; exact foldl_minY_le_init rest p.2.1
      · exact foldl_minY_le_mem rest b h1 p.2.1
    have hamxy : a.2.1 ≤ rest.foldl (fun m q => max m q.2.1) p.2.1 := by
      rcases List.mem_cons.mp ha with h1 | h1
      · rw [h1]; exact le_foldl_maxY_init rest p.2.1
      · exact le_foldl_maxY_mem rest a h1 p.2.1
    have hbmxy : b.2.1 ≤ rest.foldl (fun m q => max m q.2.1) p.2.1 := by
      rcases List.mem_cons.mp hb with h1 | h1
      · rw [h1]; exact le_foldl_maxY_init rest p.2.1
      · exact le_foldl_maxY_mem rest b h1 p.2.1
    set mnx := rest.foldl (fun m q => min m q.1) p.1 with hmnx
    set mxx := rest.foldl (fun m q => max m q.1) p.1 with hmxx
    set mny := rest.foldl (fun m q => min m q.2.1) p.2.1 with hmny
    set mxy := rest.foldl (fun m q => max m q.2.1) p.2.1 with hmxy
    set cx := a.1 + t1 * (b.1 - a.1) with hcxdef
    set cy := a.2.1 + t1 * (b.2.1 - a.2.1) with hcydef
    clear_value cx cy
    have hcx1 : mnx ≤ cx := by
      have e1 : 0 ≤ (1 - t1) * (a.1 - mnx) := mul_nonneg (by linarith) (by linarith)
      have e2 : 0 ≤ t1 * (b.1 - mnx) := mul_nonneg ht0 (by linarith)
      rw [hcxdef]; nlinarith
    have hcx2 : cx ≤ mxx := by
      have e1 : 0 ≤ (1 - t1) * (mxx - a.1) := mul_nonneg (by linarith) (by linarith)
      have e2 : 0 ≤ t1 * (mxx - b.1) := mul_nonneg ht0 (by linarith)
      rw [hcxdef]; nlinarith
    have hcy1 : mny ≤ cy := by
      have e1 : 0 ≤ (1 - t1) * (a.2.1 - mny) := mul_nonneg (by linarith) (by linarith)
      have e2 : 0 ≤ t1 * (b.2.1 - mny) := mul_nonneg ht0 (by linarith)
      rw [hcydef]; nlinarith
    have hcy2 : cy ≤ mxy := by
      have e1 : 0 ≤ (1 - t1) * (mxy - a.2.1) := mul_nonneg (by linarith) (by linarith)
      have e2 : 0 ≤ t1 * (mxy - b.2.1) := mul_nonneg ht0 (by linarith)
      rw [hcydef]; nlinarith
    have hsqx : (lp.1 - cx) ^ 2 < 400 := by
      have e0 : 0 ≤ (lp.2 - cy) ^ 2 := sq_nonneg _
      linarith
    have hsqy : (lp.2 - cy) ^ 2 < 400 := by
      have e0 : 0 ≤ (lp.1 - cx) ^ 2 := sq_nonneg _
      linarith
    have hx12 := abs_lt_twenty_of_sq_lt (lp.1 - cx) hsqx
    have hy12 := abs_lt_twenty_of_sq_lt (lp.2 - cy) hsqy
    obtain ⟨hx1, hx2⟩ := hx12
    obtain ⟨hy1, hy2⟩ := hy12
    simp only [getStrokeBounds, Rect.intersects_def, ← hmnx, ← hmxx, ← hmny, ← hmxy]
    refine ⟨by linarith, by linarith, by linarith, by linarith⟩

theorem countKeyL_eraseP_self {β : Type} (i : String) (l : List (String × β))
    (h : countKeyL i l ≤ 1) :
    countKeyL i (l.eraseP (fun st => decide (st.1 = i))) = 0 := by
  simp only [countKeyL] at h ⊢
  exact length_filter_eraseP_self (fun p => decide (p.1 = i)) l h

theorem countKeyL_eraseP_ne {β : Type} (i j : String) (hij : j ≠ i)
    (l : List (String × β)) :
    countKeyL i (l.eraseP (fun st => decide (st.1 = j))) = countKeyL i l := by
  simp only [countKeyL]
  exact length_filter_eraseP_disjoint (fun p => decide (p.1 = j))
    (fun p => decide (p.1 = i))
    (fun a ha => by
      simp only [decide_eq_true_eq] at ha
      simp [ha, hij]) l

theorem countKeyL_foldl_eraseP_zero {β : Type} :
    ∀ (hits : List String) (l : List (String × β)) (i : String),
      countKeyL i l = 0 →
      countKeyL i (hits.foldl (fun l j => l.eraseP (fun st => decide (st.1 = j))) l) = 0
  | [], _, _, h => h
  | j :: rest, l, i, h => by
    simp only [List.foldl_cons]
    apply countKeyL_foldl_eraseP_zero rest
    by_cases hij : j = i
    · subst hij
      exact countKeyL_eraseP_self j l (by omega)
    · rw [countKeyL_eraseP_ne i j hij]
      exact h

/-- Folding `eraseP` over a list of hit ids, any id present at most once in
the stroke list ends up completely absent. -/
theorem countKeyL_foldl_eraseP {β : Type} :
    ∀ (hits : List String) (l : List (String × β)) (i : String),
      i ∈ hits → countKeyL i l ≤ 1 →
      countKeyL i (hits.foldl (fun l j => l.eraseP (fun st => decide (st.1 = j))) l) = 0
  | [], _, _, h, _ => absurd h (List.not_mem_nil _)
  | j :: rest, l, i, hmem, hle => by
    simp only [List.foldl_cons]
    by_cases hij : j = i
    · subst hij
      exact countKeyL_foldl_eraseP_zero rest _ j (countKeyL_eraseP_self j l hle)
    · rcases List.mem_cons.mp hmem with h | h
      · exact absurd h.symm hij
      · exact countKeyL_foldl_eraseP rest _ i h
          (by rw [countKeyL_eraseP_ne i j hij]; exact hle)

theorem mem_hitsFold_of_mem (lp : ℚ × ℚ) :
    ∀ (cands : List StrokeItem) (hs : List String) (x : String), x ∈ hs →
      x ∈ cands.foldl (fun hs item =>
        if strokeHit lp 20 item.2 && !(hs.contains item.1) then hs ++ [item.1]
        else hs) hs
  | [], _, _, hx => hx
  | b :: rest, hs, x, hx => by
    simp only [List.foldl_cons]
    by_cases hc : (strokeHit lp 20 b.2 && !(hs.contains b.1)) = true
    · rw [if_pos hc]
      exact mem_hitsFold_of_mem lp rest _ x (List.mem_append_left _ hx)
    · rw [if_neg hc]
      exact mem_hitsFold_of_mem lp rest _ x hx

/-- The duplicate-free hit-collection fold of `eraseAt` picks up the id of
every hit candidate. -/
theorem mem_hitsFold (lp : ℚ × ℚ) :
    ∀ (cands : List StrokeItem) (hs : List String) (it : StrokeItem),
      it ∈ cands → strokeHit lp 20 it.2 = true →
      it.1 ∈ cands.foldl (fun hs item =>
        if strokeHit lp 20 item.2 && !(hs.contains item.1) then hs ++ [item.1]
        else hs) hs
  | [], _, _, hmem, _ => absurd hmem (List.not_mem_nil _)
  | b :: rest, hs, it, hmem, hhit => by
    simp only [List.foldl_cons]
    rcases List.mem_cons.mp hmem with h | h
    · subst h
      by_cases hc : (strokeHit lp 20 it.2 && !(hs.contains it.1)) = true
      · rw [if_pos hc]
        exact mem_hitsFold_of_mem lp rest _ it.1
          (List.mem_append_right _ (List.mem_singleton_self _))
      · rw [if_neg hc]
        have hcont : hs.contains it.1 = true := by
          revert hc
          cases hcc : hs.contains it.1
          · simp [hhit, hcc]
          · intro hc1; rfl
        exact mem_hitsFold_of_mem lp rest hs it.1 (List.elem_iff.mp hcont)
    · exact mem_hitsFold lp rest _ it h hhit

/-- Every candidate returned by the spatial query whose exact distance test
succeeds ends up in the hit list of `eraseAt`. -/
theorem mem_eraseHits (s : CanvasState) (lp : ℚ × ℚ) (it : StrokeItem)
    (hcand : it ∈ s.strokeQuadtree.retrieve ⟨lp.1 - 20, lp.2 - 20, 20 * 2, 20 * 2⟩)
    (hhit : strokeHit lp 20 it.2 = true) :
    it.1 ∈ eraseHits s lp := by
  simp only [eraseHits]
  exact mem_hitsFold lp _ [] it hcand hhit

theorem eraseApply_strokeQuadtree :
    ∀ (hits : List String) (s : CanvasState),
      (eraseApply hits s).strokeQuadtree =
        hits.foldl (fun t j => (t.removeById Prod.fst j).1) s.strokeQuadtree
  | [], _ => rfl
  | j :: rest, s => by
    simp only [eraseApply, List.foldl_cons]
    exact eraseApply_strokeQuadtree rest _

theorem eraseApply_strokes :
    ∀ (hits : List String) (s : CanvasState),
      (eraseApply hits s).strokes =
        hits.foldl (fun l j => l.eraseP (fun st => decide (st.1 = j))) s.strokes
  | [], _ => rfl
  | j :: rest, s => by
    simp only [eraseApply, List.foldl_cons]
    exact eraseApply_strokes rest _

/-- C8: an eraser tap at screen position `(px, py)` removes every indexed
stroke with a segment strictly within radius 20 (world units) of the probe
point: the stroke is reported deleted, and it disappears from the stroke
list and from the spatial index (given a well-formed index holding the
stroke under its padded bounds, and the at-most-once key invariants the
engine maintains). -/
theorem eraseAt_erases_every_hit (s : CanvasState) (px py : ℚ) (sid : String)
    (pts : List P3)
    (hwf : s.strokeQuadtree.WF)
    (hmem : ((sid, pts), getStrokeBounds pts) ∈ s.strokeQuadtree.allObjects)
    (hhit : strokeHit (screenToWorld s.viewport (px, py)) 20 pts = true)
    (hq1 : Quadtree.countKey Prod.fst s.strokeQuadtree sid ≤ 1)
    (hs1 : countKeyL sid s.strokes ≤ 1) :
    sid ∈ (s.eraseAt px py).2 ∧
    countKeyL sid (s.eraseAt px py).1.strokes = 0 ∧
    Quadtree.countKey Prod.fst (s.eraseAt px py).1.strokeQuadtree sid = 0 := by
  have hint := intersects_searchBounds_of_strokeHit
    (screenToWorld s.viewport (px, py)) pts hhit
  have hcand := Quadtree.mem_retrieve_of_intersects s.strokeQuadtree
    ⟨(screenToWorld s.viewport (px, py)).1 - 20,
     (screenToWorld s.viewport (px, py)).2 - 20, 20 * 2, 20 * 2⟩
    ((sid, pts), getStrokeBounds pts) hwf hmem hint
  have hhits : sid ∈ eraseHits s (screenToWorld s.viewport (px, py)) :=
    mem_eraseHits s (screenToWorld s.viewport (px, py)) (sid, pts) hcand hhit
  refine ⟨by simpa [CanvasState.eraseAt] using hhits, ?_, ?_⟩
  · have h1 : (s.eraseAt px py).1.strokes =
        (eraseHits s (screenToWorld s.viewport (px, py))).foldl
          (fun l j => l.eraseP (fun st => decide (st.1 = j))) s.strokes := by
      simp only [CanvasState.eraseAt]
      exact eraseApply_strokes _ s
    rw [h1]
    exact countKeyL_foldl_eraseP _ s.strokes sid hhits hs1
  · have h1 : (s.eraseAt px py).1.strokeQuadtree =
        (eraseHits s (screenToWorld s.viewport (px, py))).foldl
          (fun t j => (t.removeById Prod.fst j).1) s.strokeQuadtree := by
      simp only [CanvasState.eraseAt]
      exact eraseApply_strokeQuadtree _ s
    rw [h1]
    exact Quadtree.countKey_foldl_removeById Prod.fst _ s.strokeQuadtree sid hhits hq1

/-- C8 (witness): erasing at screen point `(5, 5)` on an engine holding one
indexed stroke from `(0,0)` to `(10,10)` reports the stroke deleted and
removes it from the stroke list and the spatial index. -/
theorem eraseAt_erases_every_hit_witness :
    "s1" ∈ (w8canvas.eraseAt 5 5).2 ∧
    countKeyL "s1" (w8canvas.eraseAt 5 5).1.strokes = 0 ∧
    Quadtree.countKey Prod.fst (w8canvas.eraseAt 5 5).1.strokeQuadtree "s1" = 0 :=
  eraseAt_erases_every_hit w8canvas 5 5 "s1" [(0, 0, 1/2), (10, 10, 1/2)]
    (by decide) (by decide) (by decide) (by decide) (by decide)

end Deesta
